import Mathlib

/-!
Verification of the Minesweeper rule engine (`board.ts`) of react-sweeper.

The data model and every operation (`makeBoard`, `neighbors`, `addMines`,
`reveal`, `chord`, `showMines`, the mulberry32 `random` generator) are
shallowly embedded below, translated directly from the TypeScript source.
Boards are lists of rows of cells, mutated in place in the source and
threaded functionally here.  JavaScript 32-bit integer arithmetic is
modelled on `Nat` with explicit `% 2 ^ 32`; the RNG's float outputs are
modelled as exact rationals (each output is `u / 2 ^ 32` with `u < 2 ^ 32`,
which float64 represents exactly, so the rational model is exact).

Loops that terminate structurally are given explicit fuel together with a
proof that the chosen fuel never runs out (`revealLoopF_fuel_stable`); the
rejection-sampling loop of `addMines`, which genuinely need not terminate,
returns `Option Board` with `none` on fuel exhaustion.
-/

namespace Sweeper

/-- A cell of the board, as in the `Cell` type of the source. -/
structure Cell where
  mine : Bool
  revealed : Bool
  flagged : Bool
  adjacentMines : Nat
deriving DecidableEq, Repr

/-- The default cell produced by `makeBoard`. -/
def freshCell : Cell := ⟨false, false, false, 0⟩

/-- A board location, as in the `Location` type of the source.
Row and column indices are natural numbers; the source's `row < 0` guard
is vacuous here. -/
structure Location where
  row : Nat
  col : Nat
deriving DecidableEq, Repr

/-- A board: a list of rows of cells (`Cell[][]` in the source). -/
abbrev Board := List (List Cell)

/-- `board.length` of the source. -/
def Board.rows (b : Board) : Nat := b.length

/-- `board[0].length` of the source. -/
def Board.cols (b : Board) : Nat := (b.getD 0 []).length

/-- Read the cell at `(r, c)`, defaulting out of bounds (out-of-bounds
reads are unreachable in the source and in every claim below). -/
def getCell (b : Board) (r c : Nat) : Cell := (b.getD r []).getD c freshCell

/-- Write the cell at `(r, c)`; a no-op out of bounds. -/
def setCell (b : Board) (r c : Nat) (x : Cell) : Board :=
  b.set r ((b.getD r []).set c x)

/-- The board is rectangular: every row has length `b.cols`.  Every board
the program builds is rectangular; operations preserve it. -/
def Rect (b : Board) : Prop := ∀ row ∈ b, row.length = b.cols

instance (b : Board) : Decidable (Rect b) := by
  unfold Rect; infer_instance

/-- `makeBoard` of the source: a `max 5 rows × max 5 cols` grid of
default cells. -/
def makeBoard (rows cols : Nat) : Board :=
  List.replicate (max 5 rows) (List.replicate (max 5 cols) freshCell)

/-- `neighbors` of the source: the Chebyshev-distance-1 ring around `loc`,
clipped to the board bounds, empty for an out-of-bounds `loc`.  The source
returns a `Set<Location>` built in row-major insertion order; the list
below is that set in its iteration order (it is proved `Nodup` later). -/
def neighborsList (b : Board) (loc : Location) : List Location :=
  if loc.row < b.rows ∧ loc.col < b.cols then
    ((List.range' (loc.row - 1) (min (b.rows - 1) (loc.row + 1) + 1 - (loc.row - 1))).map
      (fun i =>
        (List.range' (loc.col - 1) (min (b.cols - 1) (loc.col + 1) + 1 - (loc.col - 1))).filterMap
          (fun j => if i = loc.row ∧ j = loc.col then none else some ⟨i, j⟩))).flatten
  else []

/-- Number of cells satisfying `p` on the whole board. -/
def countCells (p : Cell → Bool) (b : Board) : Nat :=
  (b.map (fun row => (row.filter p).length)).sum

/-- Number of mines on the board. -/
def countMines (b : Board) : Nat := countCells (fun c => c.mine) b

/-- Number of cells not yet revealed. -/
def unrevealedCount (b : Board) : Nat := countCells (fun c => !c.revealed) b

/-- Number of mines among the neighbors of `loc`. -/
def adjMineCount (b : Board) (loc : Location) : Nat :=
  ((neighborsList b loc).filter (fun n => (getCell b n.row n.col).mine)).length

section ListHelpers

theorem getD_set_self {α : Type} (l : List α) (n : Nat) (x d : α) (h : n < l.length) :
    (l.set n x).getD n d = x := by
  induction l generalizing n with
  | nil => simp at h
  | cons a t ih =>
    cases n with
    | zero => simp
    | succ m => simpa using ih m (by simpa using h)

theorem getD_set_ne {α : Type} (l : List α) {n m : Nat} (x d : α) (h : n ≠ m) :
    (l.set n x).getD m d = l.getD m d := by
  induction l generalizing n m with
  | nil => simp
  | cons a t ih =>
    cases n with
    | zero => cases m with
      | zero => exact absurd rfl h
      | succ k => simp
    | succ n' => cases m with
      | zero => simp
      | succ k => simpa using ih (fun hh => h (by omega))

theorem getD_set_oob {α : Type} (l : List α) {n : Nat} (x d : α) (h : l.length ≤ n)
    (m : Nat) : (l.set n x).getD m d = l.getD m d := by
  rw [List.set_eq_of_length_le h]

theorem set_getD_self {α : Type} (l : List α) (n : Nat) (d : α) :
    l.set n (l.getD n d) = l := by
  induction l generalizing n with
  | nil => simp
  | cons a t ih =>
    cases n with
    | zero => simp
    | succ m => simpa using ih m

theorem getD_replicate {α : Type} {n : Nat} (a d : α) {i : Nat} :
    (List.replicate n a).getD i d = if i < n then a else d := by
  induction n generalizing i with
  | zero => simp
  | succ m ih =>
    cases i with
    | zero => simp [List.replicate_succ]
    | succ k =>
      simp only [List.replicate_succ, List.getD_cons_succ, ih, Nat.succ_lt_succ_iff]

theorem length_set_getD (l : List (List Cell)) (n m : Nat) (x : List Cell) :
    ((l.set n x).getD m []).length = if n = m ∧ n < l.length then x.length
      else (l.getD m []).length := by
  split
  · next h =>
    obtain ⟨rfl, hlt⟩ := h
    rw [getD_set_self l n x [] hlt]
  · next h =>
    rcases Nat.lt_or_ge n l.length with hlt | hge
    · have hne : n ≠ m := fun hh => h ⟨hh, hlt⟩
      rw [getD_set_ne l x [] hne]
    · rw [getD_set_oob l x [] hge]

end ListHelpers

section BasicLemmas

theorem rows_setCell (b : Board) (r c : Nat) (x : Cell) :
    (setCell b r c x).rows = b.rows := by
  simp [setCell, Board.rows]

theorem length_row_setCell (b : Board) (r c : Nat) (x : Cell) (i : Nat) :
    ((setCell b r c x).getD i []).length = (b.getD i []).length := by
  unfold setCell
  rw [length_set_getD]
  split
  · next h => rw [← h.1, List.length_set]
  · rfl

theorem cols_setCell (b : Board) (r c : Nat) (x : Cell) :
    (setCell b r c x).cols = b.cols := by
  simpa [Board.cols] using length_row_setCell b r c x 0

theorem rect_setCell {b : Board} (h : Rect b) (r c : Nat) (x : Cell) :
    Rect (setCell b r c x) := by
  rcases Nat.lt_or_ge r b.length with hr | hr
  · intro row hrow
    rw [cols_setCell]
    unfold setCell at hrow
    rcases List.mem_or_eq_of_mem_set hrow with hmem | rfl
    · exact h _ hmem
    · rw [List.length_set]
      have : b.getD r [] = b[r] := by
        simp [List.getD_eq_getElem?_getD, List.getElem?_eq_getElem hr]
      rw [this]
      exact h _ (List.getElem_mem _)
  · have hb : setCell b r c x = b := by
      unfold setCell
      exact List.set_eq_of_length_le hr
    rw [hb]
    exact h

theorem getCell_setCell_same {b : Board} {r c : Nat}
    (hr : r < b.rows) (hc : c < (b.getD r []).length) (x : Cell) :
    getCell (setCell b r c x) r c = x := by
  unfold getCell setCell
  rw [getD_set_self b r _ [] hr, getD_set_self _ c x freshCell hc]

theorem getCell_setCell_ne {b : Board} {r c : Nat} (r' c' : Nat)
    (hne : ¬(r = r' ∧ c = c')) (x : Cell) :
    getCell (setCell b r c x) r' c' = getCell b r' c' := by
  unfold getCell setCell
  rcases eq_or_ne r r' with rfl | hr
  · have hcc : c ≠ c' := fun h => hne ⟨rfl, h⟩
    rcases Nat.lt_or_ge r b.length with hrlt | hrge
    · rw [getD_set_self b r _ [] hrlt, getD_set_ne _ x freshCell hcc]
    · rw [getD_set_oob b _ [] hrge]
  · rw [getD_set_ne b _ [] hr]

/-- Changing a cell affects no other cell; packaged for rewriting. -/
theorem getCell_setCell (b : Board) (r c r' c' : Nat) (x : Cell) :
    getCell (setCell b r c x) r' c' =
      if r = r' ∧ c = c' ∧ r < b.rows ∧ c < (b.getD r []).length then x
      else getCell b r' c' := by
  split
  · next h => exact h.1 ▸ h.2.1 ▸ getCell_setCell_same h.2.2.1 h.2.2.2 x
  · next h =>
    by_cases heq : r = r' ∧ c = c'
    · rcases heq with ⟨rfl, rfl⟩
      rcases Nat.lt_or_ge r b.rows with hr | hr
      · rcases Nat.lt_or_ge c (b.getD r []).length with hc | hc
        · exact absurd ⟨rfl, rfl, hr, hc⟩ h
        · unfold getCell setCell
          rw [getD_set_self b r _ [] hr, List.set_eq_of_length_le hc]
      · unfold getCell setCell
        rw [getD_set_oob b _ [] hr]
    · exact getCell_setCell_ne r' c' heq x

end BasicLemmas

/-! ### The mulberry32 generator (`random` of the source)

JavaScript 32-bit operations (`|0`, `>>>`, `^`, `Math.imul`) are modelled
as unsigned arithmetic on `Nat` with explicit `% 2 ^ 32`; signed and
unsigned views share bit patterns, so the model is exact.  A generator is
a mutable closure over a 32-bit state in the source; here the state is
threaded explicitly: `random seed` is the initial state, `mulberryNext`
one draw. -/

/-- `Math.imul`: 32-bit wrap-around product (as unsigned bits). -/
def imul (x y : Nat) : Nat := x * y % 2 ^ 32

/-- The output mixing of one mulberry32 draw, from state `a < 2 ^ 32`:
`t = imul(a ^ (a >>> 15), 1 | a); t = (t + imul(t ^ (t >>> 7), 61 | t)) ^ t;
return (t ^ (t >>> 14)) >>> 0`. -/
def mulberryMix (a : Nat) : Nat :=
  let t1 := imul (Nat.xor a (a / 2 ^ 15)) (Nat.lor 1 a)
  let t2 := Nat.xor ((t1 + imul (Nat.xor t1 (t1 / 2 ^ 7)) (Nat.lor 61 t1)) % 2 ^ 32) t1
  Nat.xor t2 (t2 / 2 ^ 14)

/-- `random(seed)` of the source: the captured initial state `seed >>> 0`. -/
def random (seed : Nat) : Nat := seed % 2 ^ 32

/-- One call of the generator: `a = (a + 0x6d2b79f5) | 0`, then mix and
divide by `4294967296`.  Returns the new state and the output. -/
def mulberryNext (a : Nat) : Nat × ℚ :=
  let a2 := (a % 2 ^ 32 + 0x6d2b79f5) % 2 ^ 32
  (a2, (mulberryMix a2 : ℚ) / 4294967296)

/-- The generator state after `n` draws, starting from state `a`. -/
def mulberryState (a : Nat) : Nat → Nat
  | 0 => a
  | n + 1 => (mulberryNext (mulberryState a n)).1

/-- The `n`-th output (0-based) of a generator started in state `a`. -/
def mulberrySeq (a : Nat) (n : Nat) : ℚ := (mulberryNext (mulberryState a n)).2

/-! ### The game operations -/

/-- `showMines` of the source: set `revealed := true` on every mine. -/
def showMines (b : Board) : Board :=
  b.map (List.map (fun c => if c.mine then { c with revealed := true } else c))

/-- The loop body state of `reveal`: pop a location off the stack, skip it
if it is already revealed or flagged, otherwise reveal it; return `-1` on
a mine, push all neighbors of a zero-count cell.  The stack's head is its
top (the source pushes at the end and pops from the end, hence the
`reverse` when pushing a neighbor batch).  `fuel` bounds the number of
iterations; `revealLoopF_fuel_stable` below shows the fuel `reveal`
supplies can never run out, so the fuel-exhaustion branch (which returns
the JavaScript loop's state unchanged) is unreachable.  The bounds guard
models the JavaScript array access `board[cr][cc]` being defined; for the
rectangular boards the program builds it is exactly the in-bounds check,
and every pushed neighbor satisfies it. -/
def revealLoopF : Nat → Board → List Location → Nat → Board × Int
  | _, b, [], count => (b, (count : Int))
  | 0, b, _ :: _, count => (b, (count : Int))
  | fuel + 1, b, loc :: rest, count =>
    if loc.row < b.length ∧ loc.col < (b.getD loc.row []).length then
      let cell := getCell b loc.row loc.col
      if cell.revealed || cell.flagged then revealLoopF fuel b rest count
      else
        let b2 := setCell b loc.row loc.col { cell with revealed := true }
        if cell.mine then (b2, -1)
        else if cell.adjacentMines = 0 then
          revealLoopF fuel b2 ((neighborsList b2 loc).reverse ++ rest) (count + 1)
        else revealLoopF fuel b2 rest (count + 1)
    else revealLoopF fuel b rest count

/-- `reveal` of the source: flood fill from `loc` with an explicit stack.
Returns the final board and the count (or `-1` on a mine). -/
def reveal (b : Board) (loc : Location) : Board × Int :=
  revealLoopF (9 * unrevealedCount b + 1) b [loc] 0

/-- The `for (... of neigh)` loop of `chord`: reveal each neighbor in
turn, propagating `-1` immediately, otherwise accumulating the counts. -/
def chordLoop : Board → List Location → Nat → Board × Int
  | b, [], acc => (b, (acc : Int))
  | b, n :: rest, acc =>
    let res := reveal b n
    if res.2 = -1 then (res.1, -1)
    else chordLoop res.1 rest (acc + res.2.toNat)

/-- The number of flagged neighbors of `loc` (the `adjacentFlags` counter
of `chord`). -/
def flaggedNeighborCount (b : Board) (loc : Location) : Nat :=
  ((neighborsList b loc).filter (fun n => (getCell b n.row n.col).flagged)).length

/-- `chord` of the source: if the flagged-neighbor count equals the cell's
`adjacentMines`, reveal every neighbor via `reveal` (flagged ones are
skipped inside `reveal`), propagating `-1`; otherwise return 0. -/
def chord (b : Board) (loc : Location) : Board × Int :=
  if flaggedNeighborCount b loc = (getCell b loc.row loc.col).adjacentMines then
    chordLoop b (neighborsList b loc) 0
  else (b, 0)

/-- `board[r][c].mine = true` followed by the `adjacentMines++` bumps on
each neighbor, as one placement step of `addMines`. -/
def bumpAdjacent : Board → List Location → Board
  | b, [] => b
  | b, n :: rest =>
    bumpAdjacent
      (setCell b n.row n.col
        { getCell b n.row n.col with
          adjacentMines := (getCell b n.row n.col).adjacentMines + 1 }) rest

/-- Place a mine at `(r, c)` and bump its neighbors' counts. -/
def placeMine (b : Board) (r c : Nat) : Board :=
  let b1 := setCell b r c { getCell b r c with mine := true }
  bumpAdjacent b1 (neighborsList b1 ⟨r, c⟩)

/-- The rejection-sampling loop of `addMines`.  `s` is the stream of the
generator's outputs (`s i` is the value of the `i`-th `rng()` call);
iteration `k` draws `s (2k)` for the row and `s (2k + 1)` for the column.
`ex` is the precomputed exclusion set (the neighbors of the click), `mc`
the `mineCount` counter.  The source's `while` has no bound, and need not
terminate; `none` reports exhausted fuel. -/
def addMinesLoop (click : Location) (mines : Nat) (ex : List Location)
    (s : Nat → ℚ) : Nat → Nat → Nat → Board → Option Board
  | 0, _, mc, b => if mines ≤ mc then some b else none
  | fuel + 1, k, mc, b =>
    if mines ≤ mc then some b
    else
      let r := (⌊s (2 * k) * (b.rows : ℚ)⌋).toNat
      let c := (⌊s (2 * k + 1) * (b.cols : ℚ)⌋).toNat
      if ¬(r = click.row ∧ c = click.col) ∧ (Location.mk r c) ∉ ex ∧
          ¬(getCell b r c).mine then
        addMinesLoop click mines ex s fuel (k + 1) (mc + 1) (placeMine b r c)
      else addMinesLoop click mines ex s fuel (k + 1) mc b

/-- `addMines` of the source, with the RNG's output stream `s` and an
explicit iteration bound `fuel`. -/
def addMines (b : Board) (mines : Nat) (click : Location) (s : Nat → ℚ)
    (fuel : Nat) : Option Board :=
  addMinesLoop click mines (neighborsList b click) s fuel 0 0 b

/-- The stream `s` is a legal RNG output stream: every value in `[0, 1)`. -/
def ValidStream (s : Nat → ℚ) : Prop := ∀ n, 0 ≤ s n ∧ s n < 1

section NeighborGeometry

theorem mem_inner_neighbors {i jlo jlen : Nat} {loc n : Location} :
    n ∈ (List.range' jlo jlen).filterMap
        (fun j => if i = loc.row ∧ j = loc.col then none else some ⟨i, j⟩) ↔
      n.row = i ∧ n.col ∈ List.range' jlo jlen ∧ ¬(i = loc.row ∧ n.col = loc.col) := by
  rw [List.mem_filterMap]
  constructor
  · rintro ⟨j, hj, hf⟩
    by_cases hc : i = loc.row ∧ j = loc.col
    · rw [if_pos hc] at hf; cases hf
    · rw [if_neg hc] at hf
      cases hf
      exact ⟨rfl, hj, hc⟩
  · rintro ⟨hrow, hmem, hnc⟩
    obtain ⟨nr, nc⟩ := n
    cases hrow
    exact ⟨nc, hmem, by rw [if_neg hnc]⟩

/-- The membership characterization of a neighbor set: the in-bounds
Chebyshev-distance-1 ring around an in-bounds center. -/
theorem mem_neighborsList {b : Board} {loc : Location}
    (hr : loc.row < b.rows) (hc : loc.col < b.cols) (n : Location) :
    n ∈ neighborsList b loc ↔
      n.row < b.rows ∧ n.col < b.cols ∧ ¬(n.row = loc.row ∧ n.col = loc.col) ∧
        loc.row - 1 ≤ n.row ∧ n.row ≤ loc.row + 1 ∧
        loc.col - 1 ≤ n.col ∧ n.col ≤ loc.col + 1 := by
  unfold neighborsList
  rw [if_pos ⟨hr, hc⟩, List.mem_flatten]
  constructor
  · rintro ⟨l, hl, hnl⟩
    rw [List.mem_map] at hl
    obtain ⟨i, hi, rfl⟩ := hl
    rw [List.mem_range'_1] at hi
    rw [mem_inner_neighbors] at hnl
    obtain ⟨hrow, hmem, hnc⟩ := hnl
    rw [List.mem_range'_1] at hmem
    have hb : 0 < b.rows := Nat.lt_of_le_of_lt (Nat.zero_le _) hr
    have hb' : 0 < b.cols := Nat.lt_of_le_of_lt (Nat.zero_le _) hc
    refine ⟨by omega, by omega, ?_, by omega, by omega, by omega, by omega⟩
    intro hcen
    exact hnc ⟨by omega, hcen.2⟩
  · rintro ⟨hnr, hnc, hncen, h1, h2, h3, h4⟩
    refine ⟨(List.range' (loc.col - 1)
        (min (b.cols - 1) (loc.col + 1) + 1 - (loc.col - 1))).filterMap
        (fun j => if n.row = loc.row ∧ j = loc.col then none else some ⟨n.row, j⟩), ?_, ?_⟩
    · rw [List.mem_map]
      exact ⟨n.row, by rw [List.mem_range'_1]; omega, rfl⟩
    · rw [mem_inner_neighbors]
      refine ⟨rfl, by rw [List.mem_range'_1]; omega, ?_⟩
      intro hcen
      exact hncen ⟨hcen.1, hcen.2⟩

/-- A neighbor list is nonempty only for an in-bounds center. -/
theorem center_inbounds_of_mem_neighborsList {b : Board} {loc n : Location}
    (h : n ∈ neighborsList b loc) : loc.row < b.rows ∧ loc.col < b.cols := by
  unfold neighborsList at h
  split at h
  · next hin => exact hin
  · cases h

/-- Every member of a neighbor list is in bounds (no hypotheses on the
center). -/
theorem mem_neighborsList_bounds {b : Board} {loc n : Location}
    (h : n ∈ neighborsList b loc) : n.row < b.rows ∧ n.col < b.cols := by
  have hin := center_inbounds_of_mem_neighborsList h
  have hch := (mem_neighborsList hin.1 hin.2 n).mp h
  exact ⟨hch.1, hch.2.1⟩

/-- Chebyshev adjacency is symmetric. -/
theorem neighborsList_symm {b : Board} {loc n : Location}
    (hr : loc.row < b.rows) (hc : loc.col < b.cols)
    (hnr : n.row < b.rows) (hnc : n.col < b.cols) :
    n ∈ neighborsList b loc ↔ loc ∈ neighborsList b n := by
  rw [mem_neighborsList hr hc, mem_neighborsList hnr hnc]
  constructor
  · rintro ⟨_, _, hne, h1, h2, h3, h4⟩
    refine ⟨hr, hc, ?_, by omega, by omega, by omega, by omega⟩
    rintro ⟨e1, e2⟩
    exact hne ⟨e1.symm, e2.symm⟩
  · rintro ⟨_, _, hne, h1, h2, h3, h4⟩
    refine ⟨hnr, hnc, ?_, by omega, by omega, by omega, by omega⟩
    rintro ⟨e1, e2⟩
    exact hne ⟨e1.symm, e2.symm⟩

/-- The neighbor list depends only on the board's dimensions. -/
theorem neighborsList_congr {b b' : Board} (hr : b.rows = b'.rows)
    (hc : b.cols = b'.cols) (loc : Location) :
    neighborsList b loc = neighborsList b' loc := by
  unfold neighborsList
  rw [hr, hc]

/-- The neighbor list never repeats a location (the source builds a
`Set`). -/
theorem neighborsList_nodup (b : Board) (loc : Location) :
    (neighborsList b loc).Nodup := by
  unfold neighborsList
  split
  · rw [List.nodup_flatten]
    constructor
    · intro l hl
      rw [List.mem_map] at hl
      obtain ⟨i, _, rfl⟩ := hl
      refine List.Nodup.filterMap ?_ (List.nodup_range' _ _)
      intro j j' m hj hj'
      rw [Option.mem_def] at hj hj'
      by_cases hcj : i = loc.row ∧ j = loc.col
      · rw [if_pos hcj] at hj; cases hj
      · by_cases hcj' : i = loc.row ∧ j' = loc.col
        · rw [if_pos hcj'] at hj'; cases hj'
        · rw [if_neg hcj] at hj
          rw [if_neg hcj'] at hj'
          simpa using hj.trans hj'.symm
    · rw [List.pairwise_map]
      refine List.Pairwise.imp ?_ (List.nodup_range' _ _)
      intro i i' hne m hm hm'
      rw [mem_inner_neighbors] at hm hm'
      exact hne (hm.1 ▸ hm'.1)
  · exact List.nodup_nil

/-- A cell has at most eight neighbors. -/
theorem neighborsList_length_le (b : Board) (loc : Location) :
    (neighborsList b loc).length ≤ 8 := by
  by_cases hin : loc.row < b.rows ∧ loc.col < b.cols
  · have hsub : neighborsList b loc ⊆
        [Location.mk (loc.row - 1) (loc.col - 1), ⟨loc.row - 1, loc.col⟩,
          ⟨loc.row - 1, loc.col + 1⟩, ⟨loc.row, loc.col - 1⟩, ⟨loc.row, loc.col + 1⟩,
          ⟨loc.row + 1, loc.col - 1⟩, ⟨loc.row + 1, loc.col⟩,
          ⟨loc.row + 1, loc.col + 1⟩] := by
      intro n hn
      obtain ⟨nr, nc⟩ := n
      rw [mem_neighborsList hin.1 hin.2 _] at hn
      dsimp only at hn
      obtain ⟨hb1, hb2, hne, h1, h2, h3, h4⟩ := hn
      simp only [not_and] at hne
      simp only [List.mem_cons, List.not_mem_nil, or_false, Location.mk.injEq]
      omega
    have := List.Subperm.length_le
      (List.subperm_of_subset (neighborsList_nodup b loc) hsub)
    simpa using this
  · unfold neighborsList
    rw [if_neg hin]
    simp

end NeighborGeometry

section Counting

theorem filter_length_set (p : Cell → Bool) (l : List Cell) {c : Nat}
    (hc : c < l.length) (x : Cell) :
    ((l.set c x).filter p).length + (if p (l.getD c freshCell) then 1 else 0)
      = (l.filter p).length + (if p x then 1 else 0) := by
  induction l generalizing c with
  | nil => simp at hc
  | cons a t ih =>
    cases c with
    | zero =>
      simp only [List.set_cons_zero, List.getD_cons_zero, List.filter_cons]
      by_cases hx : p x <;> by_cases ha : p a <;> simp [hx, ha]
    | succ m =>
      have hm : m < t.length := by simpa using hc
      have hih := ih hm
      simp only [List.set_cons_succ, List.getD_cons_succ, List.filter_cons]
      by_cases ha : p a
      · simp only [ha, if_true, List.length_cons]
        omega
      · simp only [ha, Bool.false_eq_true, if_false]
        omega

theorem countCells_setCell (p : Cell → Bool) (b : Board) {r c : Nat}
    (hr : r < b.rows) (hc : c < (b.getD r []).length) (x : Cell) :
    countCells p (setCell b r c x) + (if p (getCell b r c) then 1 else 0)
      = countCells p b + (if p x then 1 else 0) := by
  unfold countCells setCell getCell
  induction b generalizing r with
  | nil => simp [Board.rows] at hr
  | cons row t ih =>
    cases r with
    | zero =>
      simp only [List.getD_cons_zero] at hc ⊢
      simp only [List.set_cons_zero, List.map_cons, List.sum_cons]
      have := filter_length_set p row hc x
      omega
    | succ m =>
      have hm : m < t.length := by simpa [Board.rows] using hr
      simp only [List.getD_cons_succ] at hc ⊢
      simp only [List.set_cons_succ, List.map_cons, List.sum_cons]
      have := ih (by simpa [Board.rows] using hm) hc
      omega

/-- If the written cell satisfies `p` exactly as the old one did, the count
is unchanged (also covers out-of-bounds writes, which are no-ops). -/
theorem countCells_setCell_same (p : Cell → Bool) (b : Board) (r c : Nat)
    (x : Cell) (hpx : p x = p (getCell b r c)) :
    countCells p (setCell b r c x) = countCells p b := by
  rcases Nat.lt_or_ge r b.rows with hr | hr
  · rcases Nat.lt_or_ge c (b.getD r []).length with hc | hc
    · have := countCells_setCell p b hr hc x
      rw [hpx] at this
      omega
    · unfold setCell
      rw [List.set_eq_of_length_le hc, set_getD_self]
  · unfold setCell
    rw [List.set_eq_of_length_le (by simpa [Board.rows] using hr)]

end Counting

section MakeBoardFacts

theorem makeBoard_rows (r c : Nat) : (makeBoard r c).rows = max 5 r := by
  simp [makeBoard, Board.rows]

theorem makeBoard_cols (r c : Nat) : (makeBoard r c).cols = max 5 c := by
  have h5 : 0 < max 5 r := by omega
  unfold makeBoard Board.cols
  rw [List.getD_eq_getElem?_getD, List.getElem?_replicate]
  rw [if_pos (by omega)]
  simp

theorem makeBoard_rect (r c : Nat) : Rect (makeBoard r c) := by
  intro row hrow
  rw [makeBoard_cols]
  unfold makeBoard at hrow
  rw [List.eq_of_mem_replicate hrow]
  simp

theorem getCell_makeBoard (r c i j : Nat) :
    getCell (makeBoard r c) i j = freshCell := by
  unfold getCell makeBoard
  rw [getD_replicate]
  split
  · rw [getD_replicate]
    split <;> rfl
  · simp

theorem countCells_makeBoard (p : Cell → Bool) (r c : Nat)
    (hp : p freshCell = false) : countCells p (makeBoard r c) = 0 := by
  unfold countCells makeBoard
  rw [List.map_replicate, List.filter_replicate, hp]
  simp

theorem countMines_makeBoard (r c : Nat) : countMines (makeBoard r c) = 0 :=
  countCells_makeBoard _ r c rfl

theorem row_length_of_rect {b : Board} (hb : Rect b) {r : Nat}
    (hr : r < b.rows) : (b.getD r []).length = b.cols := by
  have : b.getD r [] = b[r] := by
    simp [List.getD_eq_getElem?_getD, List.getElem?_eq_getElem (by simpa [Board.rows] using hr)]
  rw [this]
  exact hb _ (List.getElem_mem _)

end MakeBoardFacts

section Evolution

/-- How a single cell may change across `reveal`/`chord`: either untouched,
or an unflagged, unrevealed cell gets `revealed := true` (all other fields
kept). -/
def CellEvo (x y : Cell) : Prop :=
  y = x ∨ (x.flagged = false ∧ x.revealed = false ∧ y = { x with revealed := true })

theorem cellEvo_refl (x : Cell) : CellEvo x x := Or.inl rfl

theorem cellEvo_trans {x y z : Cell} (h1 : CellEvo x y) (h2 : CellEvo y z) :
    CellEvo x z := by
  rcases h1 with rfl | ⟨hf, hr, rfl⟩
  · exact h2
  · rcases h2 with rfl | ⟨hf2, hr2, rfl⟩
    · exact Or.inr ⟨hf, hr, rfl⟩
    · simp at hr2

theorem CellEvo.mine_eq {x y : Cell} (h : CellEvo x y) : y.mine = x.mine := by
  rcases h with rfl | ⟨_, _, rfl⟩ <;> rfl

theorem CellEvo.flagged_eq {x y : Cell} (h : CellEvo x y) : y.flagged = x.flagged := by
  rcases h with rfl | ⟨_, _, rfl⟩ <;> rfl

theorem CellEvo.adj_eq {x y : Cell} (h : CellEvo x y) :
    y.adjacentMines = x.adjacentMines := by
  rcases h with rfl | ⟨_, _, rfl⟩ <;> rfl

theorem CellEvo.revealed_mono {x y : Cell} (h : CellEvo x y)
    (hx : x.revealed = true) : y.revealed = true := by
  rcases h with rfl | ⟨_, hr, rfl⟩
  · exact hx
  · rfl

theorem CellEvo.revealed_back {x y : Cell} (h : CellEvo x y)
    (hy : y.revealed = false) : x.revealed = false := by
  rcases h with rfl | ⟨_, hr, rfl⟩
  · exact hy
  · exact hr

/-- Pointwise cell evolution across a whole board. -/
def BoardEvo (b b' : Board) : Prop :=
  ∀ r c : Nat, CellEvo (getCell b r c) (getCell b' r c)

theorem boardEvo_refl (b : Board) : BoardEvo b b := fun _ _ => cellEvo_refl _

theorem boardEvo_trans {a b c : Board} (h1 : BoardEvo a b) (h2 : BoardEvo b c) :
    BoardEvo a c := fun r cc => cellEvo_trans (h1 r cc) (h2 r cc)

theorem boardEvo_reveal_step (b : Board) (loc : Location)
    (hf : (getCell b loc.row loc.col).flagged = false)
    (hr : (getCell b loc.row loc.col).revealed = false) :
    BoardEvo b
      (setCell b loc.row loc.col { getCell b loc.row loc.col with revealed := true }) := by
  intro r c
  rw [getCell_setCell]
  split
  · next h =>
    obtain ⟨e1, e2, _⟩ := h
    subst e1; subst e2
    exact Or.inr ⟨hf, hr, rfl⟩
  · exact cellEvo_refl _

/-- Boards of the same shape: same number of rows, same row lengths. -/
def ShapeEq (b b' : Board) : Prop :=
  b'.length = b.length ∧ ∀ i, (b'.getD i []).length = (b.getD i []).length

theorem shapeEq_refl (b : Board) : ShapeEq b b := ⟨rfl, fun _ => rfl⟩

theorem shapeEq_trans {a b c : Board} (h1 : ShapeEq a b) (h2 : ShapeEq b c) :
    ShapeEq a c := ⟨h2.1.trans h1.1, fun i => (h2.2 i).trans (h1.2 i)⟩

theorem shapeEq_setCell (b : Board) (r c : Nat) (x : Cell) :
    ShapeEq b (setCell b r c x) :=
  ⟨rows_setCell b r c x, length_row_setCell b r c x⟩

theorem ShapeEq.rows_eq {b b' : Board} (h : ShapeEq b b') : b'.rows = b.rows := h.1

theorem ShapeEq.cols_eq {b b' : Board} (h : ShapeEq b b') : b'.cols = b.cols := h.2 0

theorem rect_iff_getD (b : Board) :
    Rect b ↔ ∀ i, i < b.rows → (b.getD i []).length = b.cols := by
  constructor
  · intro h i hi
    exact row_length_of_rect h hi
  · intro h row hrow
    obtain ⟨i, hi, rfl⟩ := List.mem_iff_getElem.mp hrow
    have : b.getD i [] = b[i] := by
      simp [List.getD_eq_getElem?_getD, List.getElem?_eq_getElem hi]
    rw [← this]
    exact h i (by simpa [Board.rows] using hi)

theorem ShapeEq.rect {b b' : Board} (h : ShapeEq b b') (hb : Rect b) : Rect b' := by
  rw [rect_iff_getD] at hb ⊢
  intro i hi
  rw [h.2 i, h.cols_eq]
  exact hb i (by rw [← h.rows_eq]; exact hi)

end Evolution

section RevealLoopFacts

/-- `reveal`'s loop never reshapes the board. -/
theorem revealLoopF_shape (fuel : Nat) :
    ∀ (b : Board) (stack : List Location) (count : Nat),
      ShapeEq b (revealLoopF fuel b stack count).1 := by
  induction fuel with
  | zero =>
    intro b stack count
    cases stack <;> exact shapeEq_refl b
  | succ fuel ih =>
    intro b stack count
    cases stack with
    | nil => exact shapeEq_refl b
    | cons loc rest =>
      simp only [revealLoopF]
      split
      · split
        · exact ih b rest count
        · split
          · exact shapeEq_setCell b loc.row loc.col _
          · split
            · exact shapeEq_trans (shapeEq_setCell b loc.row loc.col _) (ih _ _ _)
            · exact shapeEq_trans (shapeEq_setCell b loc.row loc.col _) (ih _ _ _)
      · exact ih b rest count

/-- `reveal`'s loop only flips unflagged, unrevealed cells to revealed. -/
theorem revealLoopF_evo (fuel : Nat) :
    ∀ (b : Board) (stack : List Location) (count : Nat),
      BoardEvo b (revealLoopF fuel b stack count).1 := by
  induction fuel with
  | zero =>
    intro b stack count
    cases stack <;> exact boardEvo_refl b
  | succ fuel ih =>
    intro b stack count
    cases stack with
    | nil => exact boardEvo_refl b
    | cons loc rest =>
      simp only [revealLoopF]
      split
      · split
        · exact ih b rest count
        · next hskip =>
          have hf : (getCell b loc.row loc.col).flagged = false := by
            simp only [Bool.or_eq_true, not_or] at hskip
            simpa using hskip.2
          have hrv : (getCell b loc.row loc.col).revealed = false := by
            simp only [Bool.or_eq_true, not_or] at hskip
            simpa using hskip.1
          have hstep := boardEvo_reveal_step b loc hf hrv
          split
          · exact hstep
          · split
            · exact boardEvo_trans hstep (ih _ _ _)
            · exact boardEvo_trans hstep (ih _ _ _)
      · exact ih b rest count

/-- Revealing a popped cell lowers the unrevealed count by exactly one. -/
theorem unrevealedCount_set_true {b : Board} {r c : Nat}
    (hg : r < b.length ∧ c < (b.getD r []).length)
    (hrv : (getCell b r c).revealed = false)
    (x : Cell) (hx : x.revealed = true) :
    unrevealedCount (setCell b r c x) + 1 = unrevealedCount b := by
  have := countCells_setCell (fun cc => !cc.revealed) b (r := r) (c := c)
    (by simpa [Board.rows] using hg.1) hg.2 x
  rw [hrv, hx] at this
  simpa [unrevealedCount] using this

/-- The loop's return value, when it is not `-1`, is the running count plus
the number of newly revealed cells. -/
theorem revealLoopF_count (fuel : Nat) :
    ∀ (b : Board) (stack : List Location) (count : Nat),
      (revealLoopF fuel b stack count).2 ≠ -1 →
      ∃ m : Nat, (revealLoopF fuel b stack count).2 = (m : Int) ∧
        m + unrevealedCount (revealLoopF fuel b stack count).1 =
          count + unrevealedCount b := by
  induction fuel with
  | zero =>
    intro b stack count _
    cases stack <;> exact ⟨count, rfl, rfl⟩
  | succ fuel ih =>
    intro b stack count hne
    cases stack with
    | nil => exact ⟨count, rfl, rfl⟩
    | cons loc rest =>
      simp only [revealLoopF] at hne ⊢
      split
      · next hg =>
        rw [if_pos hg] at hne
        split
        · next hskip =>
          rw [if_pos hskip] at hne
          exact ih b rest count hne
        · next hskip =>
          rw [if_neg hskip] at hne
          have hrv : (getCell b loc.row loc.col).revealed = false := by
            simp only [Bool.or_eq_true, not_or] at hskip
            simpa using hskip.1
          have hstep := unrevealedCount_set_true hg hrv
            ⟨(getCell b loc.row loc.col).mine, true, (getCell b loc.row loc.col).flagged,
              (getCell b loc.row loc.col).adjacentMines⟩ rfl
          split
          · next hm =>
            rw [if_pos hm] at hne
            exact absurd rfl hne
          · next hm =>
            rw [if_neg hm] at hne
            split
            · next hz =>
              rw [if_pos hz] at hne
              obtain ⟨m, hm1, hm2⟩ := ih _ _ _ hne
              exact ⟨m, hm1, by omega⟩
            · next hz =>
              rw [if_neg hz] at hne
              obtain ⟨m, hm1, hm2⟩ := ih _ _ _ hne
              exact ⟨m, hm1, by omega⟩
      · next hg =>
        rw [if_neg hg] at hne
        exact ih b rest count hne

/-- Revealing a cell preserves every other field of every cell. -/
theorem reveal_step_preserves_fields (b : Board) (loc : Location) (r c : Nat) :
    ((getCell (setCell b loc.row loc.col
          { getCell b loc.row loc.col with revealed := true }) r c).mine
        = (getCell b r c).mine) ∧
      ((getCell (setCell b loc.row loc.col
          { getCell b loc.row loc.col with revealed := true }) r c).adjacentMines
        = (getCell b r c).adjacentMines) ∧
      ((getCell (setCell b loc.row loc.col
          { getCell b loc.row loc.col with revealed := true }) r c).flagged
        = (getCell b r c).flagged) := by
  rw [getCell_setCell]
  split
  · next h =>
    obtain ⟨e1, e2, _⟩ := h
    subst e1; subst e2
    exact ⟨rfl, rfl, rfl⟩
  · exact ⟨rfl, rfl, rfl⟩

/-- The flood-fill safety invariant of the spec: a non-mine cell showing
zero adjacent mines has no mined neighbor. -/
def ZeroAdjFree (b : Board) : Prop :=
  ∀ r c : Nat, r < b.rows → c < b.cols →
    (getCell b r c).mine = false → (getCell b r c).adjacentMines = 0 →
    ∀ n ∈ neighborsList b ⟨r, c⟩, (getCell b n.row n.col).mine = false

theorem zeroAdjFree_reveal_step {b : Board} (h : ZeroAdjFree b) (loc : Location) :
    ZeroAdjFree
      (setCell b loc.row loc.col { getCell b loc.row loc.col with revealed := true }) := by
  intro r c hr hc hm hz n hn
  set b2 := setCell b loc.row loc.col
    { getCell b loc.row loc.col with revealed := true } with hb2
  have hsh := shapeEq_setCell b loc.row loc.col
    { getCell b loc.row loc.col with revealed := true }
  have hrows : b2.rows = b.rows := hsh.rows_eq
  have hcols : b2.cols = b.cols := hsh.cols_eq
  have hnl : neighborsList b2 ⟨r, c⟩ = neighborsList b ⟨r, c⟩ :=
    neighborsList_congr hrows hcols _
  have hp := reveal_step_preserves_fields b loc r c
  have hpn := reveal_step_preserves_fields b loc n.row n.col
  rw [← hb2] at hp hpn
  rw [hpn.1]
  refine h r c (hrows ▸ hr) (hcols ▸ hc) (by rw [← hp.1]; exact hm)
    (by rw [← hp.2.1]; exact hz) n ?_
  rw [← hnl]
  exact hn

/-- If every stacked location holds a non-mine cell and the board satisfies
the zero-adjacency invariant, the loop never returns `-1` (the mine branch
is unreachable). -/
theorem revealLoopF_no_mine_hit (fuel : Nat) :
    ∀ (b : Board) (stack : List Location) (count : Nat),
      Rect b → ZeroAdjFree b →
      (∀ l ∈ stack, (getCell b l.row l.col).mine = false) →
      (revealLoopF fuel b stack count).2 ≠ -1 := by
  induction fuel with
  | zero =>
    intro b stack count _ _ _
    cases stack <;> simp [revealLoopF]
  | succ fuel ih =>
    intro b stack count hrect hzaf hstack
    cases stack with
    | nil => simp [revealLoopF]
    | cons loc rest =>
      simp only [revealLoopF]
      split
      · next hg =>
        split
        · exact ih b rest count hrect hzaf fun l hl => hstack l (List.mem_cons_of_mem _ hl)
        · next hskip =>
          have hmine : (getCell b loc.row loc.col).mine = false :=
            hstack loc (List.mem_cons_self _ _)
          rw [if_neg (by simp [hmine])]
          set b2 := setCell b loc.row loc.col
            { getCell b loc.row loc.col with revealed := true } with hb2
          have hsh := shapeEq_setCell b loc.row loc.col
            { getCell b loc.row loc.col with revealed := true }
          rw [← hb2] at hsh
          have hrect2 : Rect b2 := hsh.rect hrect
          have hzaf2 : ZeroAdjFree b2 := zeroAdjFree_reveal_step hzaf loc
          have hmfields : ∀ r c : Nat, (getCell b2 r c).mine = (getCell b r c).mine :=
            fun r c => (hb2 ▸ (reveal_step_preserves_fields b loc r c).1)
          split
          · next hz =>
            refine ih b2 _ _ hrect2 hzaf2 ?_
            intro l hl
            rw [List.mem_append] at hl
            rcases hl with hl | hl
            · rw [List.mem_reverse] at hl
              have hloc_in : loc.row < b.rows ∧ loc.col < b.cols := by
                refine ⟨by simpa [Board.rows] using hg.1, ?_⟩
                rw [← row_length_of_rect hrect (by simpa [Board.rows] using hg.1)]
                exact hg.2
              have hnl : neighborsList b2 loc = neighborsList b loc :=
                neighborsList_congr hsh.rows_eq hsh.cols_eq _
              rw [hnl] at hl
              rw [hmfields]
              exact hzaf loc.row loc.col hloc_in.1 hloc_in.2 hmine hz _ hl
            · rw [hmfields]
              exact hstack l (List.mem_cons_of_mem _ hl)
          · refine ih b2 _ _ hrect2 hzaf2 ?_
            intro l hl
            rw [hmfields]
            exact hstack l (List.mem_cons_of_mem _ hl)
      · exact ih b rest count hrect hzaf fun l hl => hstack l (List.mem_cons_of_mem _ hl)

/-- The fuel argument is irrelevant above the measure
`stack.length + 9 * unrevealedCount`: each iteration pops one entry and
pushes at most eight, and pushes only after revealing a cell.  Hence the
fuel `reveal` supplies (`9 * unrevealedCount b + 1` for the one-element
stack) can never be exhausted, and the fuel-based loop agrees with the
unbounded `while` loop of the source. -/
theorem revealLoopF_fuel_stable (fuel : Nat) :
    ∀ (b : Board) (stack : List Location) (count : Nat),
      stack.length + 9 * unrevealedCount b ≤ fuel →
      revealLoopF (fuel + 1) b stack count = revealLoopF fuel b stack count := by
  induction fuel with
  | zero =>
    intro b stack count hle
    cases stack with
    | nil => rfl
    | cons loc rest => simp at hle
  | succ fuel ih =>
    intro b stack count hle
    cases stack with
    | nil => rfl
    | cons loc rest =>
      have hlen : rest.length + 1 + 9 * unrevealedCount b ≤ fuel + 1 := by
        simpa using hle
      simp only [revealLoopF]
      split
      · next hg =>
        split
        · exact ih b rest count (by omega)
        · next hskip =>
          have hrv : (getCell b loc.row loc.col).revealed = false := by
            simp only [Bool.or_eq_true, not_or] at hskip
            simpa using hskip.1
          have hstep := unrevealedCount_set_true hg hrv
            ⟨(getCell b loc.row loc.col).mine, true, (getCell b loc.row loc.col).flagged,
              (getCell b loc.row loc.col).adjacentMines⟩ rfl
          split
          · rfl
          · split
            · refine ih _ _ _ ?_
              have hnb := neighborsList_length_le
                (setCell b loc.row loc.col
                  ⟨(getCell b loc.row loc.col).mine, true, (getCell b loc.row loc.col).flagged,
                    (getCell b loc.row loc.col).adjacentMines⟩) loc
              simp only [List.length_append, List.length_reverse]
              omega
            · refine ih _ _ _ ?_
              omega
      · exact ih b rest count (by omega)

/-- One step of `reveal` at an already-revealed or flagged cell: skip,
empty stack, return `(b, 0)`. -/
theorem reveal_skip {b : Board} {loc : Location}
    (hg : loc.row < b.length ∧ loc.col < (b.getD loc.row []).length)
    (hskip : ((getCell b loc.row loc.col).revealed ||
      (getCell b loc.row loc.col).flagged) = true) :
    reveal b loc = (b, 0) := by
  unfold reveal
  simp only [revealLoopF]
  rw [if_pos hg, if_pos hskip]
  cases h : 9 * unrevealedCount b <;> rfl

/-- One step of `reveal` at an unrevealed, unflagged mine: reveal it and
return `-1` at once. -/
theorem reveal_mine {b : Board} {loc : Location}
    (hg : loc.row < b.length ∧ loc.col < (b.getD loc.row []).length)
    (hrv : (getCell b loc.row loc.col).revealed = false)
    (hfl : (getCell b loc.row loc.col).flagged = false)
    (hm : (getCell b loc.row loc.col).mine = true) :
    reveal b loc =
      (setCell b loc.row loc.col
        ⟨(getCell b loc.row loc.col).mine, true, (getCell b loc.row loc.col).flagged,
          (getCell b loc.row loc.col).adjacentMines⟩, -1) := by
  unfold reveal
  simp only [revealLoopF]
  rw [if_pos hg, if_neg (by simp [hrv, hfl]), if_pos hm]

/-- A `-1` outcome pinpoints a newly revealed mine on the final board. -/
theorem revealLoopF_minus1 (fuel : Nat) :
    ∀ (b : Board) (stack : List Location) (count : Nat),
      (revealLoopF fuel b stack count).2 = -1 →
      ∃ r c : Nat, r < b.length ∧ c < (b.getD r []).length ∧
        (getCell (revealLoopF fuel b stack count).1 r c).mine = true ∧
        (getCell (revealLoopF fuel b stack count).1 r c).revealed = true ∧
        (getCell b r c).revealed = false := by
  induction fuel with
  | zero =>
    intro b stack count h
    cases stack <;> simp [revealLoopF] at h
  | succ fuel ih =>
    intro b stack count h
    cases stack with
    | nil => simp [revealLoopF] at h
    | cons loc rest =>
      simp only [revealLoopF] at h ⊢
      split at h <;> rename_i hg
      · split at h <;> rename_i hskip
        · rw [if_pos hg, if_pos hskip]
          exact ih b rest count h
        · have hrv : (getCell b loc.row loc.col).revealed = false := by
            simp only [Bool.or_eq_true, not_or] at hskip
            simpa using hskip.1
          rw [if_pos hg, if_neg hskip]
          split at h <;> rename_i hm
          · rw [if_pos hm]
            refine ⟨loc.row, loc.col, hg.1, hg.2, ?_, ?_, hrv⟩
            · rw [getCell_setCell_same (by simpa [Board.rows] using hg.1) hg.2]
              exact hm
            · rw [getCell_setCell_same (by simpa [Board.rows] using hg.1) hg.2]
          · rw [if_neg hm]
            have hfl : (getCell b loc.row loc.col).flagged = false := by
              simp only [Bool.or_eq_true, not_or] at hskip
              simpa using hskip.2
            have hsh := shapeEq_setCell b loc.row loc.col
              ⟨(getCell b loc.row loc.col).mine, true, (getCell b loc.row loc.col).flagged,
                (getCell b loc.row loc.col).adjacentMines⟩
            have hevo : BoardEvo b (setCell b loc.row loc.col
                ⟨(getCell b loc.row loc.col).mine, true, (getCell b loc.row loc.col).flagged,
                  (getCell b loc.row loc.col).adjacentMines⟩) :=
              boardEvo_reveal_step b loc hfl hrv
            split at h <;> rename_i hz
            · rw [if_pos hz]
              obtain ⟨r, c, h1, h2, h3, h4, h5⟩ := ih _ _ _ h
              exact ⟨r, c, hsh.1 ▸ h1, hsh.2 r ▸ h2, h3, h4,
                ((hevo r c).revealed_back h5)⟩
            · rw [if_neg hz]
              obtain ⟨r, c, h1, h2, h3, h4, h5⟩ := ih _ _ _ h
              exact ⟨r, c, hsh.1 ▸ h1, hsh.2 r ▸ h2, h3, h4,
                ((hevo r c).revealed_back h5)⟩
      · rw [if_neg hg]
        exact ih b rest count h

/-- If `reveal` does not hit a mine, the starting cell (when unflagged and
in bounds) ends up revealed. -/
theorem reveal_start_revealed {b : Board} {loc : Location}
    (hg : loc.row < b.length ∧ loc.col < (b.getD loc.row []).length)
    (hfl : (getCell b loc.row loc.col).flagged = false)
    (hne : (reveal b loc).2 ≠ -1) :
    (getCell (reveal b loc).1 loc.row loc.col).revealed = true := by
  unfold reveal at hne ⊢
  simp only [revealLoopF] at hne ⊢
  rw [if_pos hg] at hne ⊢
  by_cases hrv : (getCell b loc.row loc.col).revealed = true
  · rw [if_pos (by simp [hrv])] at hne ⊢
    exact hrv
  · have hrv' : (getCell b loc.row loc.col).revealed = false := by
      simpa using hrv
    rw [if_neg (by simp [hrv', hfl])] at hne ⊢
    split at hne <;> rename_i hm
    · exact absurd rfl hne
    · rw [if_neg hm]
      have hset : (getCell (setCell b loc.row loc.col
          ⟨(getCell b loc.row loc.col).mine, true, (getCell b loc.row loc.col).flagged,
            (getCell b loc.row loc.col).adjacentMines⟩) loc.row loc.col).revealed = true := by
        rw [getCell_setCell_same (by simpa [Board.rows] using hg.1) hg.2]
      split <;> rename_i hz
      · exact ((revealLoopF_evo _ _ _ _) loc.row loc.col).revealed_mono hset
      · exact hset

theorem reveal_evo (b : Board) (loc : Location) : BoardEvo b (reveal b loc).1 :=
  revealLoopF_evo _ _ _ _

theorem reveal_shape (b : Board) (loc : Location) : ShapeEq b (reveal b loc).1 :=
  revealLoopF_shape _ _ _ _

theorem reveal_count {b : Board} {loc : Location} (h : (reveal b loc).2 ≠ -1) :
    ∃ m : Nat, (reveal b loc).2 = (m : Int) ∧
      m + unrevealedCount (reveal b loc).1 = unrevealedCount b := by
  simpa using revealLoopF_count _ b [loc] 0 h

theorem reveal_minus1 {b : Board} {loc : Location} (h : (reveal b loc).2 = -1) :
    ∃ r c : Nat, r < b.length ∧ c < (b.getD r []).length ∧
      (getCell (reveal b loc).1 r c).mine = true ∧
      (getCell (reveal b loc).1 r c).revealed = true ∧
      (getCell b r c).revealed = false :=
  revealLoopF_minus1 _ _ _ _ h

end RevealLoopFacts

section ChordFacts

theorem chordLoop_evo : ∀ (l : List Location) (b : Board) (acc : Nat),
    BoardEvo b (chordLoop b l acc).1 := by
  intro l
  induction l with
  | nil => intro b acc; exact boardEvo_refl b
  | cons n rest ih =>
    intro b acc
    simp only [chordLoop]
    split
    · exact reveal_evo b n
    · exact boardEvo_trans (reveal_evo b n) (ih _ _)

theorem chordLoop_shape : ∀ (l : List Location) (b : Board) (acc : Nat),
    ShapeEq b (chordLoop b l acc).1 := by
  intro l
  induction l with
  | nil => intro b acc; exact shapeEq_refl b
  | cons n rest ih =>
    intro b acc
    simp only [chordLoop]
    split
    · exact reveal_shape b n
    · exact shapeEq_trans (reveal_shape b n) (ih _ _)

theorem chordLoop_count : ∀ (l : List Location) (b : Board) (acc : Nat),
    (chordLoop b l acc).2 ≠ -1 →
    ∃ m : Nat, (chordLoop b l acc).2 = (m : Int) ∧
      m + unrevealedCount (chordLoop b l acc).1 = acc + unrevealedCount b := by
  intro l
  induction l with
  | nil =>
    intro b acc _
    exact ⟨acc, rfl, rfl⟩
  | cons n rest ih =>
    intro b acc hne
    simp only [chordLoop] at hne ⊢
    split at hne <;> rename_i hr1
    · exact absurd rfl hne
    · rw [if_neg hr1]
      obtain ⟨m, hm1, hm2⟩ := ih (reveal b n).1 (acc + (reveal b n).2.toNat) hne
      obtain ⟨m0, hm01, hm02⟩ := reveal_count hr1
      have htn : (reveal b n).2.toNat = m0 := by rw [hm01]; simp
      rw [htn] at hm1 hm2 ⊢
      exact ⟨m, hm1, by omega⟩

theorem chordLoop_minus1 : ∀ (l : List Location) (b : Board) (acc : Nat),
    (chordLoop b l acc).2 = -1 →
    ∃ r c : Nat, r < b.length ∧ c < (b.getD r []).length ∧
      (getCell (chordLoop b l acc).1 r c).mine = true ∧
      (getCell (chordLoop b l acc).1 r c).revealed = true ∧
      (getCell b r c).revealed = false := by
  intro l
  induction l with
  | nil =>
    intro b acc h
    simp [chordLoop] at h
  | cons n rest ih =>
    intro b acc h
    simp only [chordLoop] at h ⊢
    split at h <;> rename_i hr1
    · rw [if_pos hr1]
      exact reveal_minus1 hr1
    · rw [if_neg hr1]
      obtain ⟨r, c, h1, h2, h3, h4, h5⟩ := ih _ _ h
      have hsh := reveal_shape b n
      have hevo := reveal_evo b n
      exact ⟨r, c, hsh.1 ▸ h1, hsh.2 r ▸ h2, h3, h4, (hevo r c).revealed_back h5⟩

/-- When no reveal in the chord loop hits a mine, every unflagged listed
location (in bounds, on a rectangular board) ends up revealed. -/
theorem chordLoop_reveals : ∀ (l : List Location) (b : Board) (acc : Nat),
    Rect b →
    (chordLoop b l acc).2 ≠ -1 →
    ∀ n ∈ l, n.row < b.rows → n.col < b.cols →
      (getCell b n.row n.col).flagged = false →
      (getCell (chordLoop b l acc).1 n.row n.col).revealed = true := by
  intro l
  induction l with
  | nil =>
    intro b acc _ _ n hn
    cases hn
  | cons hd rest ih =>
    intro b acc hrect hne n hn hnr hnc hfl
    simp only [chordLoop] at hne ⊢
    split at hne <;> rename_i hr1
    · exact absurd rfl hne
    · rw [if_neg hr1]
      have hsh := reveal_shape b hd
      have hrect2 : Rect (reveal b hd).1 := hsh.rect hrect
      rcases List.mem_cons.mp hn with rfl | htail
      · have hg : n.row < b.length ∧ n.col < (b.getD n.row []).length := by
          refine ⟨by simpa [Board.rows] using hnr, ?_⟩
          rw [row_length_of_rect hrect hnr]
          exact hnc
        have hstart := reveal_start_revealed hg hfl hr1
        exact ((chordLoop_evo rest (reveal b n).1 _) n.row n.col).revealed_mono hstart
      · refine ih (reveal b hd).1 _ hrect2 hne n htail ?_ ?_ ?_
        · rw [hsh.rows_eq]; exact hnr
        · rw [hsh.cols_eq]; exact hnc
        · rw [((reveal_evo b hd) n.row n.col).flagged_eq]; exact hfl

end ChordFacts

section PlacementFacts

theorem bumpAdjacent_shape : ∀ (l : List Location) (b : Board),
    ShapeEq b (bumpAdjacent b l) := by
  intro l
  induction l with
  | nil => intro b; exact shapeEq_refl b
  | cons n rest ih =>
    intro b
    simp only [bumpAdjacent]
    exact shapeEq_trans (shapeEq_setCell b n.row n.col _) (ih _)

/-- Effect of the `adjacentMines++` loop: each listed (distinct, in-bounds)
location is bumped once; all other cells are untouched. -/
theorem getCell_bumpAdjacent : ∀ (l : List Location) (b : Board), l.Nodup →
    (∀ n ∈ l, n.row < b.rows ∧ n.col < (b.getD n.row []).length) →
    ∀ r c : Nat, getCell (bumpAdjacent b l) r c =
      if (Location.mk r c) ∈ l then
        ⟨(getCell b r c).mine, (getCell b r c).revealed, (getCell b r c).flagged,
          (getCell b r c).adjacentMines + 1⟩
      else getCell b r c := by
  intro l
  induction l with
  | nil =>
    intro b _ _ r c
    simp [bumpAdjacent]
  | cons n rest ih =>
    intro b hnd hbd r c
    obtain ⟨hnmem, hndrest⟩ := List.nodup_cons.mp hnd
    have hnb := hbd n (List.mem_cons_self _ _)
    set x : Cell := ⟨(getCell b n.row n.col).mine, (getCell b n.row n.col).revealed,
      (getCell b n.row n.col).flagged, (getCell b n.row n.col).adjacentMines + 1⟩ with hx
    have hstep : setCell b n.row n.col
        ⟨(getCell b n.row n.col).mine, (getCell b n.row n.col).revealed,
          (getCell b n.row n.col).flagged, (getCell b n.row n.col).adjacentMines + 1⟩
        = setCell b n.row n.col x := by rw [hx]
    have hshape := shapeEq_setCell b n.row n.col x
    have hbd2 : ∀ m ∈ rest, m.row < (setCell b n.row n.col x).rows ∧
        m.col < ((setCell b n.row n.col x).getD m.row []).length := by
      intro m hm
      have := hbd m (List.mem_cons_of_mem _ hm)
      exact ⟨by rw [rows_setCell]; exact this.1, by rw [length_row_setCell]; exact this.2⟩
    simp only [bumpAdjacent, hstep]
    rw [ih (setCell b n.row n.col x) hndrest hbd2 r c]
    by_cases heq : Location.mk r c = n
    · have hn : n = Location.mk r c := heq.symm
      subst hn
      rw [if_neg (fun hmem => hnmem hmem), if_pos (List.mem_cons_self _ _)]
      dsimp only
      rw [getCell_setCell_same hnb.1 hnb.2]
    · have hne : ¬(n.row = r ∧ n.col = c) := by
        rintro ⟨h1, h2⟩
        exact heq (by cases n; cases h1; cases h2; rfl)
      rw [getCell_setCell_ne r c hne x]
      by_cases hmem : Location.mk r c ∈ rest
      · rw [if_pos hmem, if_pos (List.mem_cons_of_mem _ hmem)]
      · rw [if_neg hmem, if_neg (by
          intro hcons
          rcases List.mem_cons.mp hcons with h | h
          · exact heq h
          · exact hmem h)]

theorem placeMine_shape {b : Board} (r c : Nat) : ShapeEq b (placeMine b r c) := by
  unfold placeMine
  exact shapeEq_trans (shapeEq_setCell b r c _) (bumpAdjacent_shape _ _)

/-- Pointwise description of `placeMine` on a rectangular board with an
in-bounds target: the target's `mine` flag is set, each neighbor's
`adjacentMines` is bumped, everything else is untouched. -/
theorem getCell_placeMine {b : Board} (hrect : Rect b) {r c : Nat}
    (hr : r < b.rows) (hc : c < b.cols) (r' c' : Nat) :
    getCell (placeMine b r c) r' c' =
      (fun base =>
        if (Location.mk r' c') ∈ neighborsList b ⟨r, c⟩ then
          ⟨base.mine, base.revealed, base.flagged, base.adjacentMines + 1⟩
        else base)
      (if r = r' ∧ c = c' then
          ⟨true, (getCell b r c).revealed, (getCell b r c).flagged,
            (getCell b r c).adjacentMines⟩
        else getCell b r' c') := by
  unfold placeMine
  have hrow : c < (b.getD r []).length := by rw [row_length_of_rect hrect hr]; exact hc
  set b1 := setCell b r c
    { getCell b r c with mine := true } with hb1
  have hsh1 : ShapeEq b b1 := shapeEq_setCell b r c _
  have hnl : neighborsList b1 ⟨r, c⟩ = neighborsList b ⟨r, c⟩ :=
    neighborsList_congr hsh1.rows_eq hsh1.cols_eq _
  have hbd : ∀ n ∈ neighborsList b1 ⟨r, c⟩, n.row < b1.rows ∧
      n.col < (b1.getD n.row []).length := by
    intro n hn
    rw [hnl] at hn
    have hb := mem_neighborsList_bounds hn
    refine ⟨by rw [hsh1.rows_eq]; exact hb.1, ?_⟩
    rw [hsh1.2 n.row, row_length_of_rect hrect hb.1]
    exact hb.2
  rw [getCell_bumpAdjacent _ b1 (hnl ▸ neighborsList_nodup b ⟨r, c⟩) hbd r' c', hnl]
  have hcell1 : ∀ i j : Nat, getCell b1 i j =
      if r = i ∧ c = j then { getCell b r c with mine := true } else getCell b i j := by
    intro i j
    rw [hb1, getCell_setCell]
    split
    · next h => rw [if_pos ⟨h.1, h.2.1⟩]
    · next h =>
      by_cases hij : r = i ∧ c = j
      · exact absurd ⟨hij.1, hij.2, by rw [← hij.1, ← hij.2] at *; exact hr, hrow⟩ h
      · rw [if_neg hij]
  rw [hcell1 r' c']

theorem self_not_mem_neighborsList (b : Board) (loc : Location) :
    loc ∉ neighborsList b loc := by
  intro h
  have hin := center_inbounds_of_mem_neighborsList h
  have := (mem_neighborsList hin.1 hin.2 loc).mp h
  exact this.2.2.1 ⟨rfl, rfl⟩

theorem placeMine_mine {b : Board} (hrect : Rect b) {r c : Nat}
    (hr : r < b.rows) (hc : c < b.cols) (r' c' : Nat) :
    (getCell (placeMine b r c) r' c').mine =
      if r = r' ∧ c = c' then true else (getCell b r' c').mine := by
  rw [getCell_placeMine hrect hr hc r' c']
  by_cases hctr : r = r' ∧ c = c'
  · obtain ⟨rfl, rfl⟩ := hctr
    simp [self_not_mem_neighborsList]
  · by_cases hmem : (Location.mk r' c') ∈ neighborsList b ⟨r, c⟩ <;> simp [hmem, hctr]

theorem placeMine_flagged {b : Board} (hrect : Rect b) {r c : Nat}
    (hr : r < b.rows) (hc : c < b.cols) (r' c' : Nat) :
    (getCell (placeMine b r c) r' c').flagged = (getCell b r' c').flagged := by
  rw [getCell_placeMine hrect hr hc r' c']
  by_cases hctr : r = r' ∧ c = c'
  · obtain ⟨rfl, rfl⟩ := hctr
    simp [self_not_mem_neighborsList]
  · by_cases hmem : (Location.mk r' c') ∈ neighborsList b ⟨r, c⟩ <;> simp [hmem, hctr]

theorem placeMine_revealed {b : Board} (hrect : Rect b) {r c : Nat}
    (hr : r < b.rows) (hc : c < b.cols) (r' c' : Nat) :
    (getCell (placeMine b r c) r' c').revealed = (getCell b r' c').revealed := by
  rw [getCell_placeMine hrect hr hc r' c']
  by_cases hctr : r = r' ∧ c = c'
  · obtain ⟨rfl, rfl⟩ := hctr
    simp [self_not_mem_neighborsList]
  · by_cases hmem : (Location.mk r' c') ∈ neighborsList b ⟨r, c⟩ <;> simp [hmem, hctr]

theorem placeMine_adj {b : Board} (hrect : Rect b) {r c : Nat}
    (hr : r < b.rows) (hc : c < b.cols) (r' c' : Nat) :
    (getCell (placeMine b r c) r' c').adjacentMines =
      (getCell b r' c').adjacentMines +
        (if (Location.mk r' c') ∈ neighborsList b ⟨r, c⟩ then 1 else 0) := by
  rw [getCell_placeMine hrect hr hc r' c']
  by_cases hctr : r = r' ∧ c = c'
  · obtain ⟨rfl, rfl⟩ := hctr
    simp [self_not_mem_neighborsList]
  · by_cases hmem : (Location.mk r' c') ∈ neighborsList b ⟨r, c⟩ <;> simp [hmem, hctr]

theorem countMines_bumpAdjacent : ∀ (l : List Location) (b : Board),
    countMines (bumpAdjacent b l) = countMines b := by
  intro l
  induction l with
  | nil => intro b; rfl
  | cons n rest ih =>
    intro b
    simp only [bumpAdjacent]
    rw [ih]
    exact countCells_setCell_same _ b n.row n.col _ rfl

theorem countMines_placeMine {b : Board} {r c : Nat}
    (hr : r < b.rows) (hc : c < (b.getD r []).length)
    (hm : (getCell b r c).mine = false) :
    countMines (placeMine b r c) = countMines b + 1 := by
  unfold placeMine
  rw [countMines_bumpAdjacent]
  have := countCells_setCell (fun cc => cc.mine) b hr hc { getCell b r c with mine := true }
  rw [hm] at this
  simpa [countMines] using this

theorem length_filter_or_eq : ∀ (l : List Location), l.Nodup →
    ∀ (e : Location) (p : Location → Bool), p e = false →
    (l.filter (fun a => decide (a = e) || p a)).length
      = (l.filter p).length + (if e ∈ l then 1 else 0) := by
  intro l
  induction l with
  | nil => intro _ e p _; simp
  | cons a t ih =>
    intro hnd e p hpe
    obtain ⟨hamem, hndt⟩ := List.nodup_cons.mp hnd
    by_cases hae : a = e
    · subst hae
      have hsub : t.filter (fun x => decide (x = a) || p x) = t.filter p := by
        refine List.filter_congr ?_
        intro x hx
        have : x ≠ a := fun hh => hamem (hh ▸ hx)
        simp [this]
      simp [List.filter_cons, hpe, hsub]
    · have hmem : e ∈ a :: t ↔ e ∈ t := by
        rw [List.mem_cons]
        exact or_iff_right (fun hh => hae hh.symm)
      rw [List.filter_cons, List.filter_cons]
      have hihv := ih hndt e p hpe
      by_cases hpa : p a
      · rw [if_pos (by simp [hpa]), if_pos hpa]
        simp only [List.length_cons, hihv, hmem]
        omega
      · rw [if_neg (by simp [hpa, hae]), if_neg (by simp [hpa])]
        rw [hihv]
        simp [hmem]

/-- Every cell's `adjacentMines` equals its actual count of mined
neighbors (the placement invariant). -/
def AdjCorrect (b : Board) : Prop :=
  ∀ r c : Nat, r < b.rows → c < b.cols →
    (getCell b r c).adjacentMines = adjMineCount b ⟨r, c⟩

theorem adjCorrect_placeMine {b : Board} (hrect : Rect b) (hadj : AdjCorrect b)
    {r c : Nat} (hr : r < b.rows) (hc : c < b.cols)
    (hm : (getCell b r c).mine = false) :
    AdjCorrect (placeMine b r c) := by
  intro r' c' hr' hc'
  have hsh := placeMine_shape (b := b) r c
  rw [hsh.rows_eq] at hr'
  rw [hsh.cols_eq] at hc'
  rw [placeMine_adj hrect hr hc r' c']
  unfold adjMineCount
  rw [neighborsList_congr hsh.rows_eq hsh.cols_eq]
  have hfc : (neighborsList b ⟨r', c'⟩).filter
      (fun n => (getCell (placeMine b r c) n.row n.col).mine)
      = (neighborsList b ⟨r', c'⟩).filter
        (fun n => decide (n = Location.mk r c) || (getCell b n.row n.col).mine) := by
    refine List.filter_congr ?_
    intro n hn
    rw [placeMine_mine hrect hr hc n.row n.col]
    by_cases hctr : r = n.row ∧ c = n.col
    · have hn' : n = Location.mk r c := by
        cases n
        cases hctr.1
        cases hctr.2
        rfl
      rw [if_pos hctr, hn']
      simp
    · have hne : ¬(n = Location.mk r c) := by
        intro hh
        subst hh
        exact hctr ⟨rfl, rfl⟩
      rw [if_neg hctr]
      simp [hne]
  rw [hfc, length_filter_or_eq _ (neighborsList_nodup b ⟨r', c'⟩) _ _ hm]
  have hsymm : (Location.mk r c) ∈ neighborsList b ⟨r', c'⟩ ↔
      (Location.mk r' c') ∈ neighborsList b ⟨r, c⟩ :=
    neighborsList_symm (by dsimp; exact hr') (by dsimp; exact hc')
      (by dsimp; exact hr) (by dsimp; exact hc)
  rw [hadj r' c' hr' hc']
  unfold adjMineCount
  by_cases hin : (Location.mk r' c') ∈ neighborsList b ⟨r, c⟩
  · rw [if_pos hin, if_pos (hsymm.mpr hin)]
  · rw [if_neg hin, if_neg (fun hh => hin (hsymm.mp hh))]

/-- A draw `floor(rng() * extent)` lands inside the extent for any RNG
value in `[0, 1)`. -/
theorem floor_mul_lt {q : ℚ} (h0 : 0 ≤ q) (h1 : q < 1) {n : Nat} (hn : 0 < n) :
    (⌊q * (n : ℚ)⌋).toNat < n := by
  have h2 : q * (n : ℚ) < (n : ℚ) := by
    have hnq : (0 : ℚ) < (n : ℚ) := by exact_mod_cast hn
    calc q * (n : ℚ) < 1 * (n : ℚ) := by
          exact mul_lt_mul_of_pos_right h1 hnq
      _ = (n : ℚ) := one_mul _
  have h3 : ⌊q * (n : ℚ)⌋ < (n : ℤ) := by
    rw [Int.floor_lt]
    exact_mod_cast h2
  omega

/-- Partial correctness of the rejection-sampling loop: a successful run
has exactly `mines` mines, correct adjacency counts everywhere, untouched
`flagged`/`revealed` fields, and every new mine outside the click cell and
the exclusion set. -/
theorem addMinesLoop_sound (click : Location) (mines : Nat) (ex : List Location)
    (s : Nat → ℚ) (hs : ValidStream s) :
    ∀ (fuel k mc : Nat) (b b' : Board),
      addMinesLoop click mines ex s fuel k mc b = some b' →
      Rect b → 0 < b.rows → 0 < b.cols →
      mc ≤ mines → countMines b = mc → AdjCorrect b →
      ShapeEq b b' ∧ Rect b' ∧ countMines b' = mines ∧ AdjCorrect b' ∧
        (∀ r c : Nat, (getCell b' r c).flagged = (getCell b r c).flagged ∧
          (getCell b' r c).revealed = (getCell b r c).revealed) ∧
        (∀ r c : Nat, (getCell b' r c).mine = true →
          (getCell b r c).mine = true ∨
            (¬(r = click.row ∧ c = click.col) ∧ (Location.mk r c) ∉ ex)) := by
  intro fuel
  induction fuel with
  | zero =>
    intro k mc b b' hres hrect hr hc hmc hcm hadj
    simp only [addMinesLoop] at hres
    split at hres
    · next hge =>
      cases hres
      exact ⟨shapeEq_refl b, hrect, by omega, hadj, fun r c => ⟨rfl, rfl⟩,
        fun r c hm => Or.inl hm⟩
    · cases hres
  | succ fuel ih =>
    intro k mc b b' hres hrect hr hc hmc hcm hadj
    simp only [addMinesLoop] at hres
    split at hres
    · next hge =>
      cases hres
      exact ⟨shapeEq_refl b, hrect, by omega, hadj, fun r c => ⟨rfl, rfl⟩,
        fun r c hm => Or.inl hm⟩
    · next hlt =>
      have hrb : (⌊s (2 * k) * (b.rows : ℚ)⌋).toNat < b.rows :=
        floor_mul_lt (hs (2 * k)).1 (hs (2 * k)).2 hr
      have hcb : (⌊s (2 * k + 1) * (b.cols : ℚ)⌋).toNat < b.cols :=
        floor_mul_lt (hs (2 * k + 1)).1 (hs (2 * k + 1)).2 hc
      split at hres
      · next hcond =>
        obtain ⟨hnotclick, hnotex, hnotmine⟩ := hcond
        set r0 := (⌊s (2 * k) * (b.rows : ℚ)⌋).toNat with hr0
        set c0 := (⌊s (2 * k + 1) * (b.cols : ℚ)⌋).toNat with hc0
        have hsh0 : ShapeEq b (placeMine b r0 c0) := placeMine_shape r0 c0
        have hrect0 : Rect (placeMine b r0 c0) := hsh0.rect hrect
        have hcm0 : countMines (placeMine b r0 c0) = mc + 1 := by
          rw [countMines_placeMine hrb
            (by rw [row_length_of_rect hrect hrb]; exact hcb)
            (by simpa using hnotmine), hcm]
        have hadj0 : AdjCorrect (placeMine b r0 c0) :=
          adjCorrect_placeMine hrect hadj hrb hcb (by simpa using hnotmine)
        obtain ⟨ih1, ih2, ih3, ih4, ih5, ih6⟩ := ih (k + 1) (mc + 1) _ b' hres hrect0
          (by rw [hsh0.rows_eq]; exact hr) (by rw [hsh0.cols_eq]; exact hc)
          (by omega) hcm0 hadj0
        refine ⟨shapeEq_trans hsh0 ih1, ih2, ih3, ih4, ?_, ?_⟩
        · intro r c
          obtain ⟨hf, hv⟩ := ih5 r c
          exact ⟨by rw [hf, placeMine_flagged hrect hrb hcb],
            by rw [hv, placeMine_revealed hrect hrb hcb]⟩
        · intro r c hm
          rcases ih6 r c hm with hm0 | hnew
          · rw [placeMine_mine hrect hrb hcb] at hm0
            split at hm0
            · next hctr =>
              exact Or.inr ⟨by rw [← hctr.1, ← hctr.2]; exact hnotclick,
                by rw [← hctr.1, ← hctr.2]; exact hnotex⟩
            · exact Or.inl hm0
          · exact Or.inr hnew
      · exact ih (k + 1) mc b b' hres hrect hr hc hmc hcm hadj

/-- A fresh board has correct (all-zero) adjacency counts. -/
theorem adjCorrect_makeBoard (r0 c0 : Nat) : AdjCorrect (makeBoard r0 c0) := by
  intro r c _ _
  rw [getCell_makeBoard]
  unfold adjMineCount
  have : (neighborsList (makeBoard r0 c0) ⟨r, c⟩).filter
      (fun n => (getCell (makeBoard r0 c0) n.row n.col).mine) = [] := by
    rw [List.filter_eq_nil_iff]
    intro n _
    rw [getCell_makeBoard]
    simp [freshCell]
  rw [this]
  rfl

end PlacementFacts

section Claims1

/-- C1: for every fresh board, in-bounds click, `[0,1)`-valued RNG stream
and `mineCount ≤ rows*cols - 9`, a completed `addMines` run leaves exactly
`mineCount` mines, and neither the clicked cell nor any of its neighbors
is a mine. -/
theorem addMines_count_and_safe_zone (r0 c0 m : Nat) (click : Location)
    (s : Nat → ℚ) (fuel : Nat) (b' : Board) (hs : ValidStream s)
    (hcr : click.row < (makeBoard r0 c0).rows)
    (hcc : click.col < (makeBoard r0 c0).cols)
    (hm : m ≤ (makeBoard r0 c0).rows * (makeBoard r0 c0).cols - 9)
    (hres : addMines (makeBoard r0 c0) m click s fuel = some b') :
    countMines b' = m ∧
      (getCell b' click.row click.col).mine = false ∧
      ∀ n ∈ neighborsList (makeBoard r0 c0) click,
        (getCell b' n.row n.col).mine = false := by
  unfold addMines at hres
  obtain ⟨hsh, hrect, hcnt, hadj, hfr, hmo⟩ :=
    addMinesLoop_sound click m _ s hs fuel 0 0 _ b' hres (makeBoard_rect r0 c0)
      (by rw [makeBoard_rows]; omega) (by rw [makeBoard_cols]; omega)
      (Nat.zero_le m) (countMines_makeBoard r0 c0) (adjCorrect_makeBoard r0 c0)
  refine ⟨hcnt, ?_, ?_⟩
  · by_contra hmine
    have hmine' : (getCell b' click.row click.col).mine = true := by
      simpa using hmine
    rcases hmo _ _ hmine' with h | h
    · rw [getCell_makeBoard] at h
      exact absurd h (by simp [freshCell])
    · exact h.1 ⟨rfl, rfl⟩
  · intro n hn
    by_contra hmine
    have hmine' : (getCell b' n.row n.col).mine = true := by simpa using hmine
    rcases hmo _ _ hmine' with h | h
    · rw [getCell_makeBoard] at h
      exact absurd h (by simp [freshCell])
    · exact h.2 hn

/-- C2: after a completed `addMines` run on a fresh board, every
non-mine cell's `adjacentMines` equals its actual count of mined
neighbors. -/
theorem addMines_adjacency (r0 c0 m : Nat) (click : Location)
    (s : Nat → ℚ) (fuel : Nat) (b' : Board) (hs : ValidStream s)
    (hcr : click.row < (makeBoard r0 c0).rows)
    (hcc : click.col < (makeBoard r0 c0).cols)
    (hm : m ≤ (makeBoard r0 c0).rows * (makeBoard r0 c0).cols - 9)
    (hres : addMines (makeBoard r0 c0) m click s fuel = some b') :
    ∀ r c : Nat, r < b'.rows → c < b'.cols →
      (getCell b' r c).mine = false →
      (getCell b' r c).adjacentMines = adjMineCount b' ⟨r, c⟩ := by
  unfold addMines at hres
  obtain ⟨hsh, hrect, hcnt, hadj, hfr, hmo⟩ :=
    addMinesLoop_sound click m _ s hs fuel 0 0 _ b' hres (makeBoard_rect r0 c0)
      (by rw [makeBoard_rows]; omega) (by rw [makeBoard_cols]; omega)
      (Nat.zero_le m) (countMines_makeBoard r0 c0) (adjCorrect_makeBoard r0 c0)
  intro r c hr hc _
  exact hadj r c hr hc

/-- C3 (amended): `reveal` on an in-bounds mine cell that is neither
already revealed nor flagged marks exactly that cell revealed and returns
`-1` immediately. -/
theorem reveal_on_mine (b : Board) (loc : Location) (hrect : Rect b)
    (hr : loc.row < b.rows) (hc : loc.col < b.cols)
    (hm : (getCell b loc.row loc.col).mine = true)
    (hrv : (getCell b loc.row loc.col).revealed = false)
    (hfl : (getCell b loc.row loc.col).flagged = false) :
    reveal b loc =
      (setCell b loc.row loc.col
        ⟨(getCell b loc.row loc.col).mine, true, (getCell b loc.row loc.col).flagged,
          (getCell b loc.row loc.col).adjacentMines⟩, -1) :=
  reveal_mine
    ⟨by simpa [Board.rows] using hr, by rw [row_length_of_rect hrect hr]; exact hc⟩
    hrv hfl hm

/-- C4: `reveal` at an already-revealed or flagged in-bounds cell returns
0 and leaves the board exactly as it was. -/
theorem reveal_noop (b : Board) (loc : Location) (hrect : Rect b)
    (hr : loc.row < b.rows) (hc : loc.col < b.cols)
    (hskip : (getCell b loc.row loc.col).revealed = true ∨
      (getCell b loc.row loc.col).flagged = true) :
    reveal b loc = (b, 0) :=
  reveal_skip
    ⟨by simpa [Board.rows] using hr, by rw [row_length_of_rect hrect hr]; exact hc⟩
    (by rcases hskip with h | h <;> simp [h])

theorem addMines_count_and_safe_zone_witness :
    ValidStream (fun _ => (1 : ℚ)/2) ∧
    (Location.mk 0 0).row < (makeBoard 5 5).rows ∧
    (Location.mk 0 0).col < (makeBoard 5 5).cols ∧
    1 ≤ (makeBoard 5 5).rows * (makeBoard 5 5).cols - 9 ∧
    addMines (makeBoard 5 5) 1 ⟨0, 0⟩ (fun _ => (1 : ℚ)/2) 1
      = some (placeMine (makeBoard 5 5) 2 2) ∧
    (countMines (placeMine (makeBoard 5 5) 2 2) = 1 ∧
      (getCell (placeMine (makeBoard 5 5) 2 2) (Location.mk 0 0).row
        (Location.mk 0 0).col).mine = false ∧
      ∀ n ∈ neighborsList (makeBoard 5 5) ⟨0, 0⟩,
        (getCell (placeMine (makeBoard 5 5) 2 2) n.row n.col).mine = false) := by
  have hvs : ValidStream (fun _ => (1 : ℚ)/2) := by
    intro n
    constructor <;> norm_num
  have h1 : ((⌊(1 : ℚ)/2 * (((makeBoard 5 5).rows : Nat) : ℚ)⌋).toNat) = 2 := by
    rw [makeBoard_rows]
    norm_num
    rfl
  have h2 : ((⌊(1 : ℚ)/2 * (((makeBoard 5 5).cols : Nat) : ℚ)⌋).toNat) = 2 := by
    rw [makeBoard_cols]
    norm_num
    rfl
  have hres : addMines (makeBoard 5 5) 1 ⟨0, 0⟩ (fun _ => (1 : ℚ)/2) 1
      = some (placeMine (makeBoard 5 5) 2 2) := by
    simp only [addMines, addMinesLoop, h1, h2]
    rw [if_neg (by norm_num), if_pos (by decide), if_pos (by norm_num)]
  exact ⟨hvs, by decide, by decide, by decide, hres,
    addMines_count_and_safe_zone 5 5 1 ⟨0, 0⟩ (fun _ => (1 : ℚ)/2) 1
      (placeMine (makeBoard 5 5) 2 2) hvs (by decide) (by decide) (by decide) hres⟩

theorem addMines_adjacency_witness :
    ValidStream (fun _ => (1 : ℚ)/2) ∧
    (Location.mk 0 0).row < (makeBoard 5 5).rows ∧
    (Location.mk 0 0).col < (makeBoard 5 5).cols ∧
    1 ≤ (makeBoard 5 5).rows * (makeBoard 5 5).cols - 9 ∧
    addMines (makeBoard 5 5) 1 ⟨0, 0⟩ (fun _ => (1 : ℚ)/2) 1
      = some (placeMine (makeBoard 5 5) 2 2) ∧
    (∀ r c : Nat, r < (placeMine (makeBoard 5 5) 2 2).rows →
      c < (placeMine (makeBoard 5 5) 2 2).cols →
      (getCell (placeMine (makeBoard 5 5) 2 2) r c).mine = false →
      (getCell (placeMine (makeBoard 5 5) 2 2) r c).adjacentMines
        = adjMineCount (placeMine (makeBoard 5 5) 2 2) ⟨r, c⟩) := by
  have hvs : ValidStream (fun _ => (1 : ℚ)/2) := by
    intro n
    constructor <;> norm_num
  have h1 : ((⌊(1 : ℚ)/2 * (((makeBoard 5 5).rows : Nat) : ℚ)⌋).toNat) = 2 := by
    rw [makeBoard_rows]
    norm_num
    rfl
  have h2 : ((⌊(1 : ℚ)/2 * (((makeBoard 5 5).cols : Nat) : ℚ)⌋).toNat) = 2 := by
    rw [makeBoard_cols]
    norm_num
    rfl
  have hres : addMines (makeBoard 5 5) 1 ⟨0, 0⟩ (fun _ => (1 : ℚ)/2) 1
      = some (placeMine (makeBoard 5 5) 2 2) := by
    simp only [addMines, addMinesLoop, h1, h2]
    rw [if_neg (by norm_num), if_pos (by decide), if_pos (by norm_num)]
  exact ⟨hvs, by decide, by decide, by decide, hres,
    addMines_adjacency 5 5 1 ⟨0, 0⟩ (fun _ => (1 : ℚ)/2) 1
      (placeMine (makeBoard 5 5) 2 2) hvs (by decide) (by decide) (by decide) hres⟩

/-- C3, counterexample to the unqualified claim: on a board whose mine at
`(0,0)` is flagged, `reveal` at that in-bounds mine returns `0`, not `-1`,
and reveals nothing. -/
theorem reveal_on_mine_cex :
    (getCell (setCell (makeBoard 5 5) 0 0 ⟨true, false, true, 0⟩) 0 0).mine = true ∧
    (0 : Nat) < (setCell (makeBoard 5 5) 0 0 ⟨true, false, true, 0⟩).rows ∧
    (0 : Nat) < (setCell (makeBoard 5 5) 0 0 ⟨true, false, true, 0⟩).cols ∧
    reveal (setCell (makeBoard 5 5) 0 0 ⟨true, false, true, 0⟩) ⟨0, 0⟩
      = (setCell (makeBoard 5 5) 0 0 ⟨true, false, true, 0⟩, 0) ∧
    (getCell (reveal (setCell (makeBoard 5 5) 0 0 ⟨true, false, true, 0⟩) ⟨0, 0⟩).1
      0 0).revealed = false := by
  decide

theorem reveal_on_mine_witness :
    Rect (setCell (makeBoard 5 5) 0 0 ⟨true, false, false, 0⟩) ∧
    (Location.mk 0 0).row < (setCell (makeBoard 5 5) 0 0 ⟨true, false, false, 0⟩).rows ∧
    (Location.mk 0 0).col < (setCell (makeBoard 5 5) 0 0 ⟨true, false, false, 0⟩).cols ∧
    (getCell (setCell (makeBoard 5 5) 0 0 ⟨true, false, false, 0⟩) 0 0).mine = true ∧
    (getCell (setCell (makeBoard 5 5) 0 0 ⟨true, false, false, 0⟩) 0 0).revealed = false ∧
    (getCell (setCell (makeBoard 5 5) 0 0 ⟨true, false, false, 0⟩) 0 0).flagged = false ∧
    reveal (setCell (makeBoard 5 5) 0 0 ⟨true, false, false, 0⟩) ⟨0, 0⟩
      = (setCell (setCell (makeBoard 5 5) 0 0 ⟨true, false, false, 0⟩) 0 0
          ⟨(getCell (setCell (makeBoard 5 5) 0 0 ⟨true, false, false, 0⟩) 0 0).mine, true,
            (getCell (setCell (makeBoard 5 5) 0 0 ⟨true, false, false, 0⟩) 0 0).flagged,
            (getCell (setCell (makeBoard 5 5) 0 0 ⟨true, false, false, 0⟩) 0 0).adjacentMines⟩,
        -1) :=
  ⟨by decide, by decide, by decide, by decide, by decide, by decide,
    reveal_on_mine (setCell (makeBoard 5 5) 0 0 ⟨true, false, false, 0⟩) ⟨0, 0⟩
      (by decide) (by decide) (by decide) (by decide) (by decide) (by decide)⟩

theorem reveal_noop_witness :
    Rect (setCell (makeBoard 5 5) 1 1 ⟨false, true, false, 0⟩) ∧
    (Location.mk 1 1).row < (setCell (makeBoard 5 5) 1 1 ⟨false, true, false, 0⟩).rows ∧
    (Location.mk 1 1).col < (setCell (makeBoard 5 5) 1 1 ⟨false, true, false, 0⟩).cols ∧
    ((getCell (setCell (makeBoard 5 5) 1 1 ⟨false, true, false, 0⟩) 1 1).revealed = true ∨
      (getCell (setCell (makeBoard 5 5) 1 1 ⟨false, true, false, 0⟩) 1 1).flagged = true) ∧
    reveal (setCell (makeBoard 5 5) 1 1 ⟨false, true, false, 0⟩) ⟨1, 1⟩
      = (setCell (makeBoard 5 5) 1 1 ⟨false, true, false, 0⟩, 0) :=
  ⟨by decide, by decide, by decide, Or.inl (by decide),
    reveal_noop (setCell (makeBoard 5 5) 1 1 ⟨false, true, false, 0⟩) ⟨1, 1⟩
      (by decide) (by decide) (by decide) (Or.inl (by decide))⟩

/-- C7: on a board satisfying the zero-adjacency invariant, `reveal`
started on a non-mine cell never returns `-1`: the flood fill's mine
branch is unreachable. -/
theorem reveal_no_mine_hit (b : Board) (loc : Location) (hrect : Rect b)
    (hzaf : ZeroAdjFree b) (hm : (getCell b loc.row loc.col).mine = false) :
    (reveal b loc).2 ≠ -1 := by
  unfold reveal
  refine revealLoopF_no_mine_hit _ b [loc] 0 hrect hzaf ?_
  intro l hl
  rw [List.mem_singleton] at hl
  subst hl
  exact hm

theorem reveal_no_mine_hit_witness :
    Rect (makeBoard 5 5) ∧ ZeroAdjFree (makeBoard 5 5) ∧
    (getCell (makeBoard 5 5) 2 2).mine = false ∧
    (reveal (makeBoard 5 5) ⟨2, 2⟩).2 ≠ -1 := by
  have hzaf : ZeroAdjFree (makeBoard 5 5) := by
    intro r c _ _ _ _ n _
    rw [getCell_makeBoard]
    rfl
  exact ⟨by decide, hzaf, by decide,
    reveal_no_mine_hit (makeBoard 5 5) ⟨2, 2⟩ (by decide) hzaf (by decide)⟩

theorem mulberryMix_lt (a : Nat) : mulberryMix a < 2 ^ 32 := by
  unfold mulberryMix imul
  refine Nat.xor_lt_two_pow (Nat.xor_lt_two_pow ?_ ?_) ?_
  · exact Nat.mod_lt _ (by norm_num)
  · exact Nat.mod_lt _ (by norm_num)
  · refine Nat.lt_of_le_of_lt (Nat.div_le_self _ _)
      (Nat.xor_lt_two_pow (Nat.mod_lt _ (by norm_num)) (Nat.mod_lt _ (by norm_num)))

/-- C8: two generators independently created from the same seed produce
identical output sequences (the `n`-th draw is a function of the seed and
`n` alone), and every output lies in `[0, 1)`. -/
theorem random_deterministic_in_range (seed : Nat) (g1 g2 : Nat)
    (h1 : g1 = random seed) (h2 : g2 = random seed) (n : Nat) :
    mulberrySeq g1 n = mulberrySeq g2 n ∧
      0 ≤ mulberrySeq g1 n ∧ mulberrySeq g1 n < 1 := by
  subst h1
  subst h2
  refine ⟨rfl, ?_, ?_⟩
  · unfold mulberrySeq mulberryNext
    positivity
  · unfold mulberrySeq mulberryNext
    rw [div_lt_one (by norm_num)]
    have := mulberryMix_lt ((mulberryState (random seed) n % 2 ^ 32 + 0x6d2b79f5) % 2 ^ 32)
    calc (mulberryMix ((mulberryState (random seed) n % 2 ^ 32 + 0x6d2b79f5) % 2 ^ 32) : ℚ)
        < ((2 ^ 32 : Nat) : ℚ) := by exact_mod_cast this
    _ = 4294967296 := by norm_num

theorem random_deterministic_in_range_witness :
    (random 42 = random 42) ∧
    (mulberrySeq (random 42) 3 = mulberrySeq (random 42) 3 ∧
      0 ≤ mulberrySeq (random 42) 3 ∧ mulberrySeq (random 42) 3 < 1) :=
  ⟨rfl, random_deterministic_in_range 42 (random 42) (random 42) rfl rfl 3⟩

/-- A consistent 5×5 position: one mine at `(4,4)` with correct adjacency
counts, the zero-count cell `(2,2)` revealed.  Chording `(2,2)` (zero
flags, zero count) floods the whole mine-free region, far beyond the
neighbor ring of `(2,2)`. -/
def cexBoard5 : Board :=
  [[⟨false, false, false, 0⟩, ⟨false, false, false, 0⟩, ⟨false, false, false, 0⟩,
      ⟨false, false, false, 0⟩, ⟨false, false, false, 0⟩],
   [⟨false, false, false, 0⟩, ⟨false, false, false, 0⟩, ⟨false, false, false, 0⟩,
      ⟨false, false, false, 0⟩, ⟨false, false, false, 0⟩],
   [⟨false, false, false, 0⟩, ⟨false, false, false, 0⟩, ⟨false, true, false, 0⟩,
      ⟨false, false, false, 0⟩, ⟨false, false, false, 0⟩],
   [⟨false, false, false, 0⟩, ⟨false, false, false, 0⟩, ⟨false, false, false, 0⟩,
      ⟨false, false, false, 1⟩, ⟨false, false, false, 1⟩],
   [⟨false, false, false, 0⟩, ⟨false, false, false, 0⟩, ⟨false, false, false, 0⟩,
      ⟨false, false, false, 1⟩, ⟨true, false, false, 0⟩]]

set_option maxRecDepth 20000 in
/-- C5, counterexample to "reveals exactly the unflagged neighbors": on
`cexBoard5`, chording the revealed, flag-count-matching cell `(2,2)` also
reveals the non-neighbor cell `(0,0)` through the cascade (23 cells in
all). -/
theorem chord_reveals_cex :
    (getCell cexBoard5 2 2).revealed = true ∧
    flaggedNeighborCount cexBoard5 ⟨2, 2⟩ = (getCell cexBoard5 2 2).adjacentMines ∧
    (Location.mk 0 0) ∉ neighborsList cexBoard5 ⟨2, 2⟩ ∧
    (getCell cexBoard5 0 0).revealed = false ∧
    (getCell (chord cexBoard5 ⟨2, 2⟩).1 0 0).revealed = true ∧
    (chord cexBoard5 ⟨2, 2⟩).2 = 23 := by
  decide

/-- C5 (amended): `chord` on an in-bounds revealed cell returns 0 and
changes nothing when the flagged-neighbor count differs from
`adjacentMines`; when they match it reveals every unflagged neighbor via
`reveal` (whose flood fill may cascade beyond the neighbor ring), never
touches flagged cells, and returns the total number of newly revealed
cells — or `-1` as soon as some reveal hits a mine, leaving that mine
newly revealed. -/
theorem chord_spec (b : Board) (loc : Location) (hrect : Rect b)
    (hr : loc.row < b.rows) (hc : loc.col < b.cols)
    (hrev : (getCell b loc.row loc.col).revealed = true) :
    (flaggedNeighborCount b loc ≠ (getCell b loc.row loc.col).adjacentMines →
      chord b loc = (b, 0)) ∧
    (flaggedNeighborCount b loc = (getCell b loc.row loc.col).adjacentMines →
      (∀ r c : Nat, CellEvo (getCell b r c) (getCell (chord b loc).1 r c)) ∧
      ((chord b loc).2 ≠ -1 →
        ∃ m : Nat, (chord b loc).2 = (m : Int) ∧
          m + unrevealedCount (chord b loc).1 = unrevealedCount b) ∧
      ((chord b loc).2 ≠ -1 →
        ∀ n ∈ neighborsList b loc, (getCell b n.row n.col).flagged = false →
          (getCell (chord b loc).1 n.row n.col).revealed = true) ∧
      ((chord b loc).2 = -1 →
        ∃ r c : Nat, (getCell (chord b loc).1 r c).mine = true ∧
          (getCell (chord b loc).1 r c).revealed = true ∧
          (getCell b r c).revealed = false)) := by
  constructor
  · intro hne
    unfold chord
    rw [if_neg hne]
  · intro heq
    have hch : chord b loc = chordLoop b (neighborsList b loc) 0 := by
      unfold chord
      rw [if_pos heq]
    rw [hch]
    refine ⟨fun r c => chordLoop_evo _ b 0 r c, ?_, ?_, ?_⟩
    · intro hne
      simpa using chordLoop_count (neighborsList b loc) b 0 hne
    · intro hne n hn hfl
      exact chordLoop_reveals (neighborsList b loc) b 0 hrect hne n hn
        (mem_neighborsList_bounds hn).1 (mem_neighborsList_bounds hn).2 hfl
    · intro hm1
      obtain ⟨r, c, _, _, h3, h4, h5⟩ := chordLoop_minus1 (neighborsList b loc) b 0 hm1
      exact ⟨r, c, h3, h4, h5⟩

set_option maxRecDepth 20000 in
theorem chord_spec_witness :
    Rect cexBoard5 ∧ (2 : Nat) < cexBoard5.rows ∧ (2 : Nat) < cexBoard5.cols ∧
    (getCell cexBoard5 2 2).revealed = true ∧
    (flaggedNeighborCount cexBoard5 ⟨2, 2⟩ = (getCell cexBoard5 2 2).adjacentMines →
      (∀ r c : Nat, CellEvo (getCell cexBoard5 r c) (getCell (chord cexBoard5 ⟨2, 2⟩).1 r c)) ∧
      ((chord cexBoard5 ⟨2, 2⟩).2 ≠ -1 →
        ∃ m : Nat, (chord cexBoard5 ⟨2, 2⟩).2 = (m : Int) ∧
          m + unrevealedCount (chord cexBoard5 ⟨2, 2⟩).1 = unrevealedCount cexBoard5) ∧
      ((chord cexBoard5 ⟨2, 2⟩).2 ≠ -1 →
        ∀ n ∈ neighborsList cexBoard5 ⟨2, 2⟩,
          (getCell cexBoard5 n.row n.col).flagged = false →
          (getCell (chord cexBoard5 ⟨2, 2⟩).1 n.row n.col).revealed = true) ∧
      ((chord cexBoard5 ⟨2, 2⟩).2 = -1 →
        ∃ r c : Nat, (getCell (chord cexBoard5 ⟨2, 2⟩).1 r c).mine = true ∧
          (getCell (chord cexBoard5 ⟨2, 2⟩).1 r c).revealed = true ∧
          (getCell cexBoard5 r c).revealed = false)) :=
  ⟨by decide, by decide, by decide, by decide,
    (chord_spec cexBoard5 ⟨2, 2⟩ (by decide) (by decide) (by decide) (by decide)).2⟩

/-- C10: `chord` never reads the chorded cell's `revealed` flag: even on
an unrevealed, unflagged cell whose flagged-neighbor count matches its
`adjacentMines`, the matching branch is taken and (absent a mine hit)
every unflagged neighbor ends up revealed — not a no-op. -/
theorem chord_ignores_revealed (b : Board) (loc : Location) (hrect : Rect b)
    (hr : loc.row < b.rows) (hc : loc.col < b.cols)
    (hunrev : (getCell b loc.row loc.col).revealed = false)
    (hunfl : (getCell b loc.row loc.col).flagged = false)
    (heq : flaggedNeighborCount b loc = (getCell b loc.row loc.col).adjacentMines) :
    chord b loc = chordLoop b (neighborsList b loc) 0 ∧
    ((chord b loc).2 ≠ -1 →
      ∀ n ∈ neighborsList b loc, (getCell b n.row n.col).flagged = false →
        (getCell (chord b loc).1 n.row n.col).revealed = true) := by
  have hch : chord b loc = chordLoop b (neighborsList b loc) 0 := by
    unfold chord
    rw [if_pos heq]
  refine ⟨hch, ?_⟩
  rw [hch]
  intro hne n hn hfl
  exact chordLoop_reveals (neighborsList b loc) b 0 hrect hne n hn
    (mem_neighborsList_bounds hn).1 (mem_neighborsList_bounds hn).2 hfl

set_option maxRecDepth 20000 in
theorem chord_ignores_revealed_witness :
    Rect (makeBoard 5 5) ∧ (2 : Nat) < (makeBoard 5 5).rows ∧
    (2 : Nat) < (makeBoard 5 5).cols ∧
    (getCell (makeBoard 5 5) 2 2).revealed = false ∧
    (getCell (makeBoard 5 5) 2 2).flagged = false ∧
    flaggedNeighborCount (makeBoard 5 5) ⟨2, 2⟩ = (getCell (makeBoard 5 5) 2 2).adjacentMines ∧
    (chord (makeBoard 5 5) ⟨2, 2⟩ = chordLoop (makeBoard 5 5) (neighborsList (makeBoard 5 5) ⟨2, 2⟩) 0 ∧
      ((chord (makeBoard 5 5) ⟨2, 2⟩).2 ≠ -1 →
        ∀ n ∈ neighborsList (makeBoard 5 5) ⟨2, 2⟩,
          (getCell (makeBoard 5 5) n.row n.col).flagged = false →
          (getCell (chord (makeBoard 5 5) ⟨2, 2⟩).1 n.row n.col).revealed = true)) :=
  ⟨by decide, by decide, by decide, by decide, by decide, by decide,
    chord_ignores_revealed (makeBoard 5 5) ⟨2, 2⟩ (by decide) (by decide) (by decide)
      (by decide) (by decide) (by decide)⟩

/-- No cell is both flagged and revealed (the spec's flag/reveal
exclusion invariant). -/
def NoFlagRevealed (b : Board) : Prop :=
  ∀ r c : Nat, ¬((getCell b r c).flagged = true ∧ (getCell b r c).revealed = true)

theorem getD_oob' {α : Type} {l : List α} {i : Nat} (d : α) (h : l.length ≤ i) :
    l.getD i d = d := by
  rw [List.getD_eq_getElem?_getD, List.getElem?_eq_none (by simpa using h)]
  rfl

theorem getCell_oob {b : Board} {r c : Nat}
    (h : b.rows ≤ r ∨ (b.getD r []).length ≤ c) : getCell b r c = freshCell := by
  unfold getCell
  rcases h with h | h
  · rw [getD_oob' [] (by simpa [Board.rows] using h)]
    rfl
  · rw [getD_oob' freshCell h]

theorem noFlagRevealed_of_inbounds {b : Board} (hrect : Rect b)
    (h : ∀ r : Nat, r < b.rows → ∀ c : Nat, c < b.cols →
      ¬((getCell b r c).flagged = true ∧ (getCell b r c).revealed = true)) :
    NoFlagRevealed b := by
  intro r c
  by_cases hr : r < b.rows
  · by_cases hc : c < b.cols
    · exact h r hr c hc
    · rw [getCell_oob (Or.inr (by rw [row_length_of_rect hrect hr]; omega))]
      simp [freshCell]
  · rw [getCell_oob (Or.inl (by omega))]
    simp [freshCell]

theorem noFlagRevealed_of_evo {b b' : Board} (hevo : BoardEvo b b')
    (h : NoFlagRevealed b) : NoFlagRevealed b' := by
  intro r c
  rcases hevo r c with heq | ⟨hfl, _, hset⟩
  · rw [heq]
    exact h r c
  · rw [hset]
    rintro ⟨hfl', _⟩
    rw [hfl] at hfl'
    cases hfl'

theorem map_getD_comm {α : Type} (g : α → α) (d : α) (hd : g d = d) :
    ∀ (l : List α) (i : Nat), (l.map g).getD i d = g (l.getD i d) := by
  intro l
  induction l with
  | nil =>
    intro i
    simp [hd]
  | cons a t ih =>
    intro i
    cases i with
    | zero => simp
    | succ j => simpa using ih j

theorem getCell_showMines (b : Board) (r c : Nat) :
    getCell (showMines b) r c =
      if (getCell b r c).mine then
        ⟨(getCell b r c).mine, true, (getCell b r c).flagged,
          (getCell b r c).adjacentMines⟩
      else getCell b r c := by
  unfold getCell showMines
  rw [map_getD_comm (List.map fun cc =>
      if cc.mine = true then { cc with revealed := true } else cc) [] rfl b r,
    map_getD_comm _ freshCell rfl (b.getD r []) c]

/-- The flags/revealed fields survive a whole `addMines` run untouched
(mine placement only writes `mine` and `adjacentMines`). -/
theorem addMinesLoop_fields (click : Location) (mines : Nat) (ex : List Location)
    (s : Nat → ℚ) (hs : ValidStream s) :
    ∀ (fuel k mc : Nat) (b b' : Board),
      addMinesLoop click mines ex s fuel k mc b = some b' →
      Rect b → 0 < b.rows → 0 < b.cols →
      ∀ r c : Nat, (getCell b' r c).flagged = (getCell b r c).flagged ∧
        (getCell b' r c).revealed = (getCell b r c).revealed := by
  intro fuel
  induction fuel with
  | zero =>
    intro k mc b b' hres _ _ _
    simp only [addMinesLoop] at hres
    split at hres
    · cases hres
      exact fun r c => ⟨rfl, rfl⟩
    · cases hres
  | succ fuel ih =>
    intro k mc b b' hres hrect hr hc
    simp only [addMinesLoop] at hres
    split at hres
    · cases hres
      exact fun r c => ⟨rfl, rfl⟩
    · next hlt =>
      have hrb : (⌊s (2 * k) * (b.rows : ℚ)⌋).toNat < b.rows :=
        floor_mul_lt (hs (2 * k)).1 (hs (2 * k)).2 hr
      have hcb : (⌊s (2 * k + 1) * (b.cols : ℚ)⌋).toNat < b.cols :=
        floor_mul_lt (hs (2 * k + 1)).1 (hs (2 * k + 1)).2 hc
      split at hres
      · next hcond =>
        set r0 := (⌊s (2 * k) * (b.rows : ℚ)⌋).toNat with hr0
        set c0 := (⌊s (2 * k + 1) * (b.cols : ℚ)⌋).toNat with hc0
        have hsh0 : ShapeEq b (placeMine b r0 c0) := placeMine_shape r0 c0
        have hstep := ih (k + 1) (mc + 1) _ b' hres (hsh0.rect hrect)
          (by rw [hsh0.rows_eq]; exact hr) (by rw [hsh0.cols_eq]; exact hc)
        intro r c
        obtain ⟨hf, hv⟩ := hstep r c
        exact ⟨by rw [hf, placeMine_flagged hrect hrb hcb],
          by rw [hv, placeMine_revealed hrect hrb hcb]⟩
      · exact ih (k + 1) mc b b' hres hrect hr hc

set_option maxRecDepth 2000 in
/-- C6, counterexample for `showMines`: a board with a flagged,
unrevealed mine satisfies the exclusion invariant, but after `showMines`
that cell is both flagged and revealed. -/
theorem flag_revealed_exclusion_cex :
    NoFlagRevealed (setCell (makeBoard 5 5) 0 0 ⟨true, false, true, 0⟩) ∧
    ¬ NoFlagRevealed (showMines (setCell (makeBoard 5 5) 0 0 ⟨true, false, true, 0⟩)) := by
  constructor
  · exact noFlagRevealed_of_inbounds (by decide) (by decide)
  · intro h
    exact h 0 0 ⟨by decide, by decide⟩

/-- C6 (amended): starting from a board where no cell is both flagged and
revealed, `addMines`, `reveal` and `chord` preserve that exclusion;
`showMines` preserves it only when no mine is flagged (it sets
`revealed := true` on every mine, flagged or not). -/
theorem flag_revealed_exclusion (b : Board) (hrect : Rect b)
    (hnofr : NoFlagRevealed b) :
    (∀ (m : Nat) (click : Location) (s : Nat → ℚ) (fuel : Nat) (b' : Board),
      ValidStream s → 0 < b.rows → 0 < b.cols →
      addMines b m click s fuel = some b' → NoFlagRevealed b') ∧
    (∀ loc : Location, NoFlagRevealed (reveal b loc).1) ∧
    (∀ loc : Location, NoFlagRevealed (chord b loc).1) ∧
    ((∀ r c : Nat, ¬((getCell b r c).mine = true ∧ (getCell b r c).flagged = true)) →
      NoFlagRevealed (showMines b)) := by
  refine ⟨?_, ?_, ?_, ?_⟩
  · intro m click s fuel b' hs hr hc hres
    unfold addMines at hres
    have hfields := addMinesLoop_fields click m _ s hs fuel 0 0 b b' hres hrect hr hc
    intro r c
    obtain ⟨hf, hv⟩ := hfields r c
    rw [hf, hv]
    exact hnofr r c
  · intro loc
    exact noFlagRevealed_of_evo (reveal_evo b loc) hnofr
  · intro loc
    unfold chord
    split
    · exact noFlagRevealed_of_evo (chordLoop_evo _ b 0) hnofr
    · exact hnofr
  · intro hnomine r c
    rw [getCell_showMines]
    split
    · next hm =>
      rintro ⟨hfl, _⟩
      exact hnomine r c ⟨hm, hfl⟩
    · exact hnofr r c

set_option maxRecDepth 20000 in
theorem flag_revealed_exclusion_witness :
    Rect (setCell (makeBoard 5 5) 1 1 ⟨false, false, true, 0⟩) ∧
    NoFlagRevealed (setCell (makeBoard 5 5) 1 1 ⟨false, false, true, 0⟩) ∧
    ((∀ (m : Nat) (click : Location) (s : Nat → ℚ) (fuel : Nat) (b' : Board),
      ValidStream s → 0 < (setCell (makeBoard 5 5) 1 1 ⟨false, false, true, 0⟩).rows →
      0 < (setCell (makeBoard 5 5) 1 1 ⟨false, false, true, 0⟩).cols →
      addMines (setCell (makeBoard 5 5) 1 1 ⟨false, false, true, 0⟩) m click s fuel = some b' →
      NoFlagRevealed b') ∧
    (∀ loc : Location,
      NoFlagRevealed (reveal (setCell (makeBoard 5 5) 1 1 ⟨false, false, true, 0⟩) loc).1) ∧
    (∀ loc : Location,
      NoFlagRevealed (chord (setCell (makeBoard 5 5) 1 1 ⟨false, false, true, 0⟩) loc).1) ∧
    ((∀ r c : Nat, ¬((getCell (setCell (makeBoard 5 5) 1 1 ⟨false, false, true, 0⟩) r c).mine = true ∧
        (getCell (setCell (makeBoard 5 5) 1 1 ⟨false, false, true, 0⟩) r c).flagged = true)) →
      NoFlagRevealed (showMines (setCell (makeBoard 5 5) 1 1 ⟨false, false, true, 0⟩)))) := by
  have hnofr : NoFlagRevealed (setCell (makeBoard 5 5) 1 1 ⟨false, false, true, 0⟩) :=
    noFlagRevealed_of_inbounds (by decide) (by decide)
  exact ⟨by decide, hnofr,
    flag_revealed_exclusion (setCell (makeBoard 5 5) 1 1 ⟨false, false, true, 0⟩)
      (by decide) hnofr⟩

end Claims1

section TerminationFacts

/-- The row-major list of all board coordinates. -/
def allCells (R C : Nat) : List Location :=
  (List.range R).flatMap (fun r => (List.range C).map (fun c => ⟨r, c⟩))

theorem mem_allCells {R C : Nat} {n : Location} :
    n ∈ allCells R C ↔ n.row < R ∧ n.col < C := by
  unfold allCells
  rw [List.mem_flatMap]
  constructor
  · rintro ⟨r, hr, hn⟩
    rw [List.mem_map] at hn
    obtain ⟨c, hc, rfl⟩ := hn
    rw [List.mem_range] at hr
    rw [List.mem_range] at hc
    exact ⟨hr, hc⟩
  · rintro ⟨hr, hc⟩
    refine ⟨n.row, by rw [List.mem_range]; exact hr, ?_⟩
    rw [List.mem_map]
    exact ⟨n.col, by rw [List.mem_range]; exact hc, by cases n; rfl⟩

theorem length_allCells (R C : Nat) : (allCells R C).length = R * C := by
  unfold allCells
  rw [List.length_flatMap]
  have : List.map (List.length ∘ fun r => (List.range C).map (fun c => Location.mk r c))
      (List.range R) = List.replicate R C := by
    have h1 : (List.length ∘ fun r => (List.range C).map (fun c => Location.mk r c))
        = Function.const Nat C := by
      funext r
      simp [Function.const]
    rw [h1, List.map_const, List.length_range]
  rw [this, List.sum_replicate, smul_eq_mul]

theorem nodup_allCells (R C : Nat) : (allCells R C).Nodup := by
  unfold allCells
  rw [List.flatMap_def, List.nodup_flatten]
  constructor
  · intro l hl
    rw [List.mem_map] at hl
    obtain ⟨r, _, rfl⟩ := hl
    refine List.Nodup.map ?_ (List.nodup_range C)
    intro c c' hcc
    injection hcc
  · rw [List.pairwise_map]
    refine List.Pairwise.imp ?_ (List.nodup_range R)
    intro r r' hne m hm hm'
    rw [List.mem_map] at hm hm'
    obtain ⟨c, _, rfl⟩ := hm
    obtain ⟨c', _, he⟩ := hm'
    injection he with h1 _
    exact hne h1.symm

/-- Row version of the position/value filter correspondence. -/
theorem filter_length_eq_range (p : Cell → Bool) :
    ∀ l : List Cell, (l.filter p).length
      = ((List.range l.length).filter (fun j => p (l.getD j freshCell))).length := by
  intro l
  induction l with
  | nil => rfl
  | cons a t ih =>
    rw [List.length_cons, List.range_succ_eq_map, List.filter_cons, List.filter_cons]
    have hmap : (List.map Nat.succ (List.range t.length)).filter
        (fun j => p ((a :: t).getD j freshCell))
        = List.map Nat.succ ((List.range t.length).filter
            (fun j => p (t.getD j freshCell))) := by
      rw [List.filter_map]
      rfl
    rw [hmap]
    by_cases hpa : p a
    · rw [if_pos hpa, if_pos (by simpa using hpa)]
      simp only [List.length_cons, List.length_map]
      rw [ih]
    · rw [if_neg hpa, if_neg (by simpa using hpa)]
      simp only [List.length_map]
      rw [ih]

/-- Sum-over-rows version of `countCells`. -/
theorem countCells_eq_range_sum (p : Cell → Bool) :
    ∀ b : Board, countCells p b
      = ((List.range b.length).map
          (fun r => ((b.getD r []).filter p).length)).sum := by
  intro b
  induction b with
  | nil => rfl
  | cons row t ih =>
    unfold countCells at ih ⊢
    rw [List.length_cons, List.range_succ_eq_map, List.map_cons, List.map_cons,
      List.sum_cons, List.sum_cons, List.map_map]
    have : List.map ((fun r => (((row :: t).getD r []).filter p).length) ∘ Nat.succ)
        (List.range t.length)
        = List.map (fun r => ((t.getD r []).filter p).length) (List.range t.length) := by
      refine List.map_congr_left ?_
      intro r _
      rfl
    rw [this, ih]
    rfl

/-- Filter over all coordinates, as a sum over rows. -/
theorem filter_allCells_eq_sum (q : Location → Bool) (R C : Nat) :
    ((allCells R C).filter q).length
      = ((List.range R).map
          (fun r => (((List.range C).map (fun c => Location.mk r c)).filter q).length)).sum := by
  unfold allCells
  rw [List.flatMap_def, List.filter_flatten, List.length_flatten,
    List.map_map, List.map_map]
  rfl

/-- On a rectangular board, the number of cells satisfying `p` equals the
number of coordinates whose cell satisfies `p`. -/
theorem countCells_eq_filter_allCells (p : Cell → Bool) (b : Board) (hrect : Rect b) :
    countCells p b
      = ((allCells b.rows b.cols).filter (fun n => p (getCell b n.row n.col))).length := by
  rw [countCells_eq_range_sum, filter_allCells_eq_sum]
  refine congrArg List.sum (List.map_congr_left ?_)
  intro r hr
  rw [List.mem_range] at hr
  rw [filter_length_eq_range p (b.getD r [])]
  rw [row_length_of_rect hrect (by simpa [Board.rows] using hr)]
  have : ((List.range b.cols).map (fun c => Location.mk r c)).filter
      (fun n => p (getCell b n.row n.col))
      = List.map (fun c => Location.mk r c)
          ((List.range b.cols).filter (fun c => p (getCell b r c))) := by
    rw [List.filter_map]
    rfl
  rw [this, List.length_map]
  rfl

theorem length_filter_not_add {α : Type} (p : α → Bool) (l : List α) :
    (l.filter p).length + (l.filter (fun a => !(p a))).length = l.length := by
  induction l with
  | nil => rfl
  | cons a t ih =>
    rw [List.filter_cons, List.filter_cons]
    by_cases hpa : p a
    · rw [if_pos hpa, if_neg (by simp [hpa])]
      simp only [List.length_cons]
      omega
    · rw [if_neg hpa, if_pos (by simp [hpa])]
      simp only [List.length_cons]
      omega

theorem length_filter_or_le {α : Type} (p q : α → Bool) (l : List α) :
    (l.filter (fun a => p a || q a)).length
      ≤ (l.filter p).length + (l.filter q).length := by
  induction l with
  | nil => simp
  | cons a t ih =>
    rw [List.filter_cons, List.filter_cons, List.filter_cons]
    by_cases hpa : p a
    · rw [if_pos (by simp [hpa]), if_pos hpa]
      simp only [List.length_cons]
      by_cases hqa : q a <;> simp [hqa] <;> omega
    · by_cases hqa : q a
      · rw [if_pos (by simp [hqa]), if_neg hpa, if_pos hqa]
        simp only [List.length_cons]
        omega
      · rw [if_neg (by simp [hpa, hqa]), if_neg hpa, if_neg hqa]
        exact ih

theorem length_filter_le_one {α : Type} {l : List α} (hnd : l.Nodup)
    {p : α → Bool} (e : α) (hp : ∀ a, p a = true → a = e) :
    (l.filter p).length ≤ 1 := by
  induction l with
  | nil => simp
  | cons a t ih =>
    obtain ⟨hmem, hndt⟩ := List.nodup_cons.mp hnd
    rw [List.filter_cons]
    by_cases hpa : p a
    · rw [if_pos hpa]
      have ht : t.filter p = [] := by
        rw [List.filter_eq_nil_iff]
        intro x hx hpx
        exact hmem ((hp x hpx).trans (hp a hpa).symm ▸ hx)
      rw [ht]
      simp
    · rw [if_neg hpa]
      exact ih hndt

theorem length_filter_mem_le {α : Type} [DecidableEq α] {l ex : List α}
    (hnd : l.Nodup) :
    (l.filter (fun a => decide (a ∈ ex))).length ≤ ex.length := by
  refine List.Subperm.length_le (List.subperm_of_subset (List.Nodup.filter _ hnd) ?_)
  intro a ha
  have := List.of_mem_filter ha
  simpa using this

/-- Pigeonhole for the rejection sampler: while fewer than `m` mines are
placed and `m ≤ rows*cols - 9`, some cell is still eligible (in bounds,
not the click, not excluded, not a mine), because the click cell, the at
most eight excluded neighbors and the placed mines cannot cover the
board. -/
theorem exists_eligible {b : Board} (hrect : Rect b) (click : Location)
    (ex : List Location) (hex : ex.length ≤ 8) (m : Nat)
    (hmine : countMines b < m) (hm : m ≤ b.rows * b.cols - 9)
    (h9 : 9 ≤ b.rows * b.cols) :
    ∃ e : Location, e.row < b.rows ∧ e.col < b.cols ∧
      ¬(e.row = click.row ∧ e.col = click.col) ∧ e ∉ ex ∧
      (getCell b e.row e.col).mine = false := by
  set bad : Location → Bool := fun n =>
    (decide (n.row = click.row ∧ n.col = click.col) ||
      (decide (n ∈ ex) || (getCell b n.row n.col).mine)) with hbad
  have hnd := nodup_allCells b.rows b.cols
  have h1 : ((allCells b.rows b.cols).filter
      (fun n => decide (n.row = click.row ∧ n.col = click.col))).length ≤ 1 := by
    refine length_filter_le_one hnd click ?_
    intro a ha
    rw [decide_eq_true_eq] at ha
    cases a
    cases ha.1
    cases ha.2
    rfl
  have h2 : ((allCells b.rows b.cols).filter (fun n => decide (n ∈ ex))).length
      ≤ ex.length := length_filter_mem_le hnd
  have h3 : ((allCells b.rows b.cols).filter
      (fun n => (getCell b n.row n.col).mine)).length = countMines b :=
    (countCells_eq_filter_allCells _ b hrect).symm
  have hb1 : ((allCells b.rows b.cols).filter bad).length
      ≤ 1 + (ex.length + countMines b) := by
    calc ((allCells b.rows b.cols).filter bad).length
        ≤ ((allCells b.rows b.cols).filter
            (fun n => decide (n.row = click.row ∧ n.col = click.col))).length +
          ((allCells b.rows b.cols).filter
            (fun n => decide (n ∈ ex) || (getCell b n.row n.col).mine)).length :=
          length_filter_or_le _ _ _
      _ ≤ ((allCells b.rows b.cols).filter
            (fun n => decide (n.row = click.row ∧ n.col = click.col))).length +
          (((allCells b.rows b.cols).filter (fun n => decide (n ∈ ex))).length +
            ((allCells b.rows b.cols).filter
              (fun n => (getCell b n.row n.col).mine)).length) := by
          have := length_filter_or_le (fun n => decide (n ∈ ex))
            (fun n => (getCell b n.row n.col).mine) (allCells b.rows b.cols)
          omega
      _ ≤ 1 + (ex.length + countMines b) := by
          rw [h3]
          omega
  have hpart := length_filter_not_add bad (allCells b.rows b.cols)
  rw [length_allCells] at hpart
  have hpos : 0 < ((allCells b.rows b.cols).filter (fun a => !(bad a))).length := by
    omega
  obtain ⟨e, he⟩ := List.exists_mem_of_length_pos hpos
  have hmem := List.mem_of_mem_filter he
  have hgood := List.of_mem_filter he
  rw [mem_allCells] at hmem
  rw [hbad] at hgood
  simp only [Bool.not_or, Bool.and_eq_true, Bool.not_eq_true', decide_eq_false_iff_not]
  at hgood
  exact ⟨e, hmem.1, hmem.2, hgood.1, hgood.2.1, hgood.2.2⟩

/-- The draw stream eventually produces every board cell, at arbitrarily
late draw indices (e.g. true with probability 1 for an ideal uniform
stream, and for any periodic enumeration of the cells). -/
def HitsAllCells (s : Nat → ℚ) (R C : Nat) : Prop :=
  ∀ k : Nat, ∀ e : Location, e.row < R → e.col < C →
    ∃ j : Nat, k ≤ j ∧ (⌊s (2 * j) * (R : ℚ)⌋).toNat = e.row ∧
      (⌊s (2 * j + 1) * (C : ℚ)⌋).toNat = e.col

/-- The rejection-sampling loop terminates for any `[0,1)`-valued stream
that keeps hitting every cell: whenever mines are still missing, an
eligible cell exists (pigeonhole) and is eventually drawn. -/
theorem addMinesLoop_terminates (click : Location) (mines : Nat)
    (ex : List Location) (s : Nat → ℚ) (hs : ValidStream s)
    {R C : Nat} (hR : 0 < R) (hC : 0 < C) (h9 : 9 ≤ R * C)
    (hex : ex.length ≤ 8) (hm : mines ≤ R * C - 9)
    (hhits : HitsAllCells s R C) :
    ∀ (d mc : Nat), mines ≤ mc + d →
      ∀ (b : Board) (k : Nat), Rect b → b.rows = R → b.cols = C →
        countMines b = mc →
        ∃ fuel b', addMinesLoop click mines ex s fuel k mc b = some b' := by
  intro d
  induction d with
  | zero =>
    intro mc hle b k _ _ _ _
    refine ⟨0, b, ?_⟩
    simp only [addMinesLoop]
    rw [if_pos (by omega)]
  | succ d ihd =>
    intro mc hle b k hrect hrows hcols hcm
    by_cases hge : mines ≤ mc
    · refine ⟨0, b, ?_⟩
      simp only [addMinesLoop]
      rw [if_pos hge]
    · have hlt : mc < mines := by omega
      have hplace : ∀ k' : Nat,
          (¬((⌊s (2 * k') * (b.rows : ℚ)⌋).toNat = click.row ∧
              (⌊s (2 * k' + 1) * (b.cols : ℚ)⌋).toNat = click.col) ∧
            (Location.mk (⌊s (2 * k') * (b.rows : ℚ)⌋).toNat
              (⌊s (2 * k' + 1) * (b.cols : ℚ)⌋).toNat) ∉ ex ∧
            ¬((getCell b (⌊s (2 * k') * (b.rows : ℚ)⌋).toNat
              (⌊s (2 * k' + 1) * (b.cols : ℚ)⌋).toNat).mine = true)) →
          ∃ fuel b', addMinesLoop click mines ex s fuel k' mc b = some b' := by
        intro k' hcond
        have hrb : (⌊s (2 * k') * (b.rows : ℚ)⌋).toNat < b.rows :=
          floor_mul_lt (hs (2 * k')).1 (hs (2 * k')).2 (by omega)
        have hcb : (⌊s (2 * k' + 1) * (b.cols : ℚ)⌋).toNat < b.cols :=
          floor_mul_lt (hs (2 * k' + 1)).1 (hs (2 * k' + 1)).2 (by omega)
        have hsh0 := placeMine_shape (b := b) (⌊s (2 * k') * (b.rows : ℚ)⌋).toNat
          (⌊s (2 * k' + 1) * (b.cols : ℚ)⌋).toNat
        obtain ⟨fuel0, b', h0⟩ := ihd (mc + 1) (by omega) _ (k' + 1) (hsh0.rect hrect)
          (by rw [hsh0.rows_eq]; exact hrows) (by rw [hsh0.cols_eq]; exact hcols)
          (by
            rw [countMines_placeMine hrb
              (by rw [row_length_of_rect hrect hrb]; exact hcb)
              (by simpa using hcond.2.2), hcm])
        refine ⟨fuel0 + 1, b', ?_⟩
        simp only [addMinesLoop]
        rw [if_neg hge, if_pos hcond]
        exact h0
      obtain ⟨e, her, hec, hene, henex, henm⟩ := exists_eligible hrect click ex hex
        mines (by omega) (by rw [hrows, hcols]; exact hm) (by rw [hrows, hcols]; exact h9)
      obtain ⟨j, hkj, hjr, hjc⟩ := hhits k e (by rw [← hrows]; exact her)
        (by rw [← hcols]; exact hec)
      rw [← hrows] at hjr
      rw [← hcols] at hjc
      have hcondj : ¬((⌊s (2 * j) * (b.rows : ℚ)⌋).toNat = click.row ∧
            (⌊s (2 * j + 1) * (b.cols : ℚ)⌋).toNat = click.col) ∧
          (Location.mk (⌊s (2 * j) * (b.rows : ℚ)⌋).toNat
            (⌊s (2 * j + 1) * (b.cols : ℚ)⌋).toNat) ∉ ex ∧
          ¬((getCell b (⌊s (2 * j) * (b.rows : ℚ)⌋).toNat
            (⌊s (2 * j + 1) * (b.cols : ℚ)⌋).toNat).mine = true) := by
        rw [hjr, hjc]
        refine ⟨hene, ?_, by rw [henm]; simp⟩
        intro hmem
        exact henex hmem
      have inner : ∀ t k', k' ≤ j → j - k' ≤ t →
          ∃ fuel b', addMinesLoop click mines ex s fuel k' mc b = some b' := by
        intro t
        induction t with
        | zero =>
          intro k' hk'j hjk'
          have hkeq : k' = j := by omega
          subst hkeq
          exact hplace k' hcondj
        | succ t iht =>
          intro k' hk'j hjk'
          by_cases hkeq : k' = j
          · subst hkeq
            exact hplace k' hcondj
          · by_cases hcond : ¬((⌊s (2 * k') * (b.rows : ℚ)⌋).toNat = click.row ∧
                (⌊s (2 * k' + 1) * (b.cols : ℚ)⌋).toNat = click.col) ∧
              (Location.mk (⌊s (2 * k') * (b.rows : ℚ)⌋).toNat
                (⌊s (2 * k' + 1) * (b.cols : ℚ)⌋).toNat) ∉ ex ∧
              ¬((getCell b (⌊s (2 * k') * (b.rows : ℚ)⌋).toNat
                (⌊s (2 * k' + 1) * (b.cols : ℚ)⌋).toNat).mine = true)
            · exact hplace k' hcond
            · obtain ⟨fuel1, b', h1⟩ := iht (k' + 1) (by omega) (by omega)
              refine ⟨fuel1 + 1, b', ?_⟩
              simp only [addMinesLoop]
              rw [if_neg hge, if_neg hcond]
              exact h1
      exact inner (j - k) k hkj (le_refl _)

/-- `addMines` terminates: some iteration bound suffices for the
rejection-sampling loop to finish. -/
def AddMinesTerminates (b : Board) (m : Nat) (click : Location)
    (s : Nat → ℚ) : Prop :=
  ∃ fuel b', addMines b m click s fuel = some b'

/-- With the constantly-zero stream (a legal `[0,1)` value), every draw is
cell `(0,0)`; if that is the clicked cell the loop never places its mine. -/
theorem addMinesLoop_zero_stream_none :
    ∀ fuel k : Nat,
      addMinesLoop ⟨0, 0⟩ 1 (neighborsList (makeBoard 5 5) ⟨0, 0⟩)
        (fun _ => 0) fuel k 0 (makeBoard 5 5) = none := by
  intro fuel
  induction fuel with
  | zero =>
    intro k
    simp [addMinesLoop]
  | succ fuel ih =>
    intro k
    simp only [addMinesLoop]
    rw [if_neg (by omega)]
    rw [if_neg (by simp [zero_mul, Int.floor_zero])]
    exact ih (k + 1)

/-- C9, counterexample to the unqualified claim: for the `[0,1)`-valued
stream that is constantly `0` and a click at `(0,0)` on a fresh 5×5 board
with `mineCount = 1 ≤ 25 - 9`, the rejection-sampling loop never
terminates. -/
theorem addMines_termination_cex :
    ValidStream (fun _ => (0 : ℚ)) ∧
    (Location.mk 0 0).row < (makeBoard 5 5).rows ∧
    (Location.mk 0 0).col < (makeBoard 5 5).cols ∧
    1 ≤ (makeBoard 5 5).rows * (makeBoard 5 5).cols - 9 ∧
    ¬ AddMinesTerminates (makeBoard 5 5) 1 ⟨0, 0⟩ (fun _ => 0) := by
  refine ⟨fun n => ⟨le_refl 0, by norm_num⟩, by decide, by decide, by decide, ?_⟩
  rintro ⟨fuel, b', hres⟩
  unfold addMines at hres
  rw [addMinesLoop_zero_stream_none fuel 0] at hres
  cases hres

/-- C9 (amended): `addMines` on a fresh board with an in-bounds click and
`mineCount ≤ rows*cols - 9` terminates for every `[0,1)`-valued RNG
stream that keeps drawing every cell of the board (in particular, almost
surely for an ideal uniform stream) — but not for every `[0,1)` stream. -/
theorem addMines_terminates (r0 c0 m : Nat) (click : Location) (s : Nat → ℚ)
    (hs : ValidStream s)
    (hcr : click.row < (makeBoard r0 c0).rows)
    (hcc : click.col < (makeBoard r0 c0).cols)
    (hm : m ≤ (makeBoard r0 c0).rows * (makeBoard r0 c0).cols - 9)
    (hhits : HitsAllCells s (makeBoard r0 c0).rows (makeBoard r0 c0).cols) :
    AddMinesTerminates (makeBoard r0 c0) m click s := by
  have h9 : 9 ≤ (makeBoard r0 c0).rows * (makeBoard r0 c0).cols := by
    rw [makeBoard_rows, makeBoard_cols]
    have := Nat.mul_le_mul (le_max_left 5 r0) (le_max_left 5 c0)
    omega
  unfold AddMinesTerminates addMines
  exact addMinesLoop_terminates click m _ s hs
    (by rw [makeBoard_rows]; omega) (by rw [makeBoard_cols]; omega) h9
    (neighborsList_length_le _ _) hm hhits m 0 (by omega) _ 0
    (makeBoard_rect r0 c0) rfl rfl (countMines_makeBoard r0 c0)

/-- A stream that enumerates the 25 cells of a 5×5 board cyclically:
draw pair `j` yields row `(j % 25) / 5` and column `(j % 25) % 5`. -/
def cyclicStream : Nat → ℚ := fun n =>
  if n % 2 = 0 then ((n / 2 % 25 / 5 : Nat) : ℚ) / 5
  else ((n / 2 % 25 % 5 : Nat) : ℚ) / 5

theorem cyclicStream_valid : ValidStream cyclicStream := by
  intro n
  unfold cyclicStream
  have hb : ∀ v : Nat, v < 5 → 0 ≤ ((v : Nat) : ℚ) / 5 ∧ ((v : Nat) : ℚ) / 5 < 1 := by
    intro v hv
    constructor
    · positivity
    · rw [div_lt_one (by norm_num)]
      exact_mod_cast by omega
  split
  · exact hb _ (by omega)
  · exact hb _ (by omega)

theorem floor_natCast_div_five (v : Nat) :
    (⌊((v : Nat) : ℚ) / 5 * ((5 : Nat) : ℚ)⌋).toNat = v := by
  have hc : ((5 : Nat) : ℚ) = (5 : ℚ) := by norm_num
  rw [hc, div_mul_cancel₀ _ (by norm_num : (5 : ℚ) ≠ 0), Int.floor_natCast]
  simp

theorem cyclicStream_hits : HitsAllCells cyclicStream 5 5 := by
  intro k e her hec
  refine ⟨(k / 25 + 1) * 25 + (5 * e.row + e.col), by omega, ?_, ?_⟩
  · have h0 : (2 * ((k / 25 + 1) * 25 + (5 * e.row + e.col))) % 2 = 0 := by omega
    have h1 : (2 * ((k / 25 + 1) * 25 + (5 * e.row + e.col))) / 2
        = (k / 25 + 1) * 25 + (5 * e.row + e.col) := by omega
    have h2 : ((k / 25 + 1) * 25 + (5 * e.row + e.col)) % 25 / 5 = e.row := by omega
    unfold cyclicStream
    rw [if_pos h0, h1, h2]
    exact floor_natCast_div_five e.row
  · have h1 : (2 * ((k / 25 + 1) * 25 + (5 * e.row + e.col)) + 1) / 2
        = (k / 25 + 1) * 25 + (5 * e.row + e.col) := by omega
    have h2 : ((k / 25 + 1) * 25 + (5 * e.row + e.col)) % 25 % 5 = e.col := by omega
    unfold cyclicStream
    rw [if_neg (by omega), h1, h2]
    exact floor_natCast_div_five e.col

theorem addMines_terminates_witness :
    ValidStream cyclicStream ∧
    (Location.mk 0 0).row < (makeBoard 5 5).rows ∧
    (Location.mk 0 0).col < (makeBoard 5 5).cols ∧
    1 ≤ (makeBoard 5 5).rows * (makeBoard 5 5).cols - 9 ∧
    HitsAllCells cyclicStream (makeBoard 5 5).rows (makeBoard 5 5).cols ∧
    AddMinesTerminates (makeBoard 5 5) 1 ⟨0, 0⟩ cyclicStream := by
  have h5r : (makeBoard 5 5).rows = 5 := by decide
  have h5c : (makeBoard 5 5).cols = 5 := by decide
  have hhits : HitsAllCells cyclicStream (makeBoard 5 5).rows (makeBoard 5 5).cols := by
    rw [h5r, h5c]
    exact cyclicStream_hits
  exact ⟨cyclicStream_valid, by decide, by decide, by decide, hhits,
    addMines_terminates 5 5 1 ⟨0, 0⟩ cyclicStream cyclicStream_valid
      (by decide) (by decide) (by decide) hhits⟩

end TerminationFacts

end Sweeper
